import Mathlib

/-!
# repro-tsnet: the line-acknowledgment server

A shallow embedding of `server/main.go` and of the parts of Go's `bufio.Scanner`
that its connection loop runs through (`NewScanner`, `Scan`, `ScanLines`, `dropCR`,
`advance`, `setErr`, `Text`).

Go strings and byte slices are lists of bytes.  The transport side of a connection is a
script: the chunks its successive `Read` calls will deliver, and how the stream ends.
-/

namespace ReproTsnet

/-! ## Bytes and formatting -/

abbrev Byte := UInt8

/-- The bytes of an ASCII string literal of the program. -/
def lit (s : String) : List Byte :=
  s.toList.map (fun c => UInt8.ofNat c.toNat)

/-- The newline byte. -/
def nl : Byte := 10

/-- The carriage return byte. -/
def cr : Byte := 13

/-- The verb `%d` of package fmt applied to a non-negative integer. -/
def fmtNat (n : Nat) : List Byte :=
  (Nat.toDigits 10 n).map (fun c => UInt8.ofNat c.toNat)

/-- The verb `%d` of package fmt applied to an `int`. -/
def fmtInt (i : Int) : List Byte :=
  if i < 0 then lit "-" ++ fmtNat i.natAbs else fmtNat i.natAbs

/-! ## The transport: the read side of a `net.Conn` -/

/-- Errors held in the `err` field of a Scanner. -/
inductive ScanErr
  | eof
  | readFailed
  | tooLong
  | advanceTooFar
  | badReadCount
  | noProgress
  | finalToken
  deriving DecidableEq, Repr

/-- How the byte stream of a connection ends once every chunk has been delivered: the peer
closes (`io.EOF`), the transport fails (another error), or the peer stays silent without
closing, so that `Read` never returns. -/
inductive Ending
  | eof
  | fail
  | silent
  deriving DecidableEq, Repr

/-- The read side of a connection: the chunks still to be delivered, in order, and the
ending of the stream. -/
structure Reader where
  pending : List (List Byte)
  ending : Ending
  deriving DecidableEq, Repr

/-- What a call of `Read` does: it returns bytes and an error, or it never returns. -/
inductive ReadResult
  | data (bytes : List Byte) (err : Option ScanErr) (r : Reader)
  | blocked
  deriving DecidableEq, Repr

/-- One call `r.Read(p)` with `len(p) = cap`: at most `cap` bytes of the chunk at the head
of the script are delivered and the rest of that chunk stays at the head. -/
def Reader.Read (r : Reader) (cap : Nat) : ReadResult :=
  match r.pending with
  | [] =>
    match r.ending with
    | .eof => .data [] (some .eof) r
    | .fail => .data [] (some .readFailed) r
    | .silent => .blocked
  | c :: rest =>
    if c.length ≤ cap then .data c none { r with pending := rest }
    else .data (c.take cap) none { r with pending := c.drop cap :: rest }

/-- Size of a script: one for each chunk and one for each byte. -/
def Reader.size (r : Reader) : Nat :=
  (r.pending.map (fun c => c.length + 1)).sum

/-! ## bufio.Scanner -/

/-- Constant `MaxScanTokenSize` of package bufio. -/
def MaxScanTokenSize : Nat := 64 * 1024

/-- Constant `startBufSize` of package bufio. -/
def startBufSize : Nat := 4096

/-- Constant `maxConsecutiveEmptyReads` of package bufio. -/
def maxConsecutiveEmptyReads : Nat := 100

/-- The largest `int` (64 bit). -/
def maxInt : Nat := 2 ^ 63 - 1

/-- The Scanner.  The bytes of `buf` outside `buf[start:end]` are never read, so the buffer
is held as its length `bufLen`, the index `start` and the window `win = buf[start:end]`;
the field `end` is `start + len(win)`.  A `nil` token is `none`. -/
structure Scanner where
  r : Reader
  maxTokenSize : Nat
  token : Option (List Byte)
  bufLen : Nat
  start : Nat
  win : List Byte
  err : Option ScanErr
  empties : Nat
  done : Bool
  deriving DecidableEq, Repr

/-- The field `end` of the Scanner. -/
def Scanner.end_ (s : Scanner) : Nat := s.start + s.win.length

/-- Function `NewScanner`: the split function is `ScanLines`, the buffer is empty. -/
def NewScanner (r : Reader) : Scanner :=
  { r := r, maxTokenSize := MaxScanTokenSize, token := none, bufLen := 0, start := 0,
    win := [], err := none, empties := 0, done := false }

/-- Function `bytes.IndexByte`. -/
def IndexByte (b : List Byte) (c : Byte) : Option Nat :=
  if b.indexOf c < b.length then some (b.indexOf c) else none

/-- Function `dropCR`: drops a terminal carriage return from the data. -/
def dropCR (data : List Byte) : List Byte :=
  if data.getLast? = some cr then data.dropLast else data

/-- Function `ScanLines`: the advance, the token and the error. -/
def ScanLines (data : List Byte) (atEOF : Bool) : Nat × Option (List Byte) × Option ScanErr :=
  if atEOF = true ∧ data.length = 0 then (0, none, none)
  else
    match IndexByte data nl with
    | some i => (i + 1, some (dropCR (data.take i)), none)
    | none => if atEOF = true then (data.length, some (dropCR data), none) else (0, none, none)

/-- Method `setErr`: records the first non-EOF error. -/
def Scanner.setErr (s : Scanner) (e : ScanErr) : Scanner :=
  if s.err = none ∨ s.err = some .eof then { s with err := some e } else s

/-- Method `advance`: consumes `n` bytes of the buffer; the second component is the boolean
it returns.  The advance of `ScanLines` is a natural number, so the test `n < 0` has no
case here. -/
def Scanner.advance (s : Scanner) (n : Nat) : Scanner × Bool :=
  if n > s.end_ - s.start then (s.setErr .advanceTooFar, false)
  else ({ s with start := s.start + n, win := s.win.drop n }, true)

/-- What one pass through the body of the loop of `Scan` does. -/
inductive Step
  | ret (ok : Bool) (s : Scanner)
  | again (s : Scanner)
  | blocked (s : Scanner)
  | panicked
  deriving DecidableEq, Repr

/-- What one pass through the body of the read loop of `Scan` does. -/
inductive ReadStep
  | brk (s : Scanner)
  | empty (s : Scanner)
  | blocked (s : Scanner)
  deriving DecidableEq, Repr

/-- One pass of the read loop up to the statement `loop++`. -/
def Scanner.readOnce (s : Scanner) : ReadStep :=
  match s.r.Read (s.bufLen - s.end_) with
  | .blocked => .blocked s
  | .data bytes err r1 =>
    if s.bufLen - s.end_ < bytes.length then .brk ({ s with r := r1 }.setErr .badReadCount)
    else
      let s1 := { s with r := r1, win := s.win ++ bytes }
      match err with
      | some e => .brk (s1.setErr e)
      | none =>
        if bytes.length > 0 then .brk { s1 with empties := 0 }
        else .empty s1

/-- The read loop `for loop := 0; ; ...` of `Scan`; the first argument is
`maxConsecutiveEmptyReads - loop`. -/
def Scanner.readLoop : Nat → Scanner → Step
  | 0, s =>
    match s.readOnce with
    | .blocked s1 => .blocked s1
    | .brk s1 => .again s1
    | .empty s1 => .again (s1.setErr .noProgress)
  | rem + 1, s =>
    match s.readOnce with
    | .blocked s1 => .blocked s1
    | .brk s1 => .again s1
    | .empty s1 => Scanner.readLoop rem s1

/-- The second half of the loop body of `Scan`: no token could be made of the buffer, so
stop on an error, else shift the data, grow the buffer and read. -/
def Scanner.fill (s : Scanner) : Step :=
  if s.err ≠ none then .ret false { s with start := 0, win := [] }
  else
    let s1 : Scanner :=
      if s.start > 0 ∧ (s.end_ = s.bufLen ∨ s.start > s.bufLen / 2) then { s with start := 0 }
      else s
    if s1.end_ = s1.bufLen then
      if s1.bufLen ≥ s1.maxTokenSize ∨ s1.bufLen > maxInt / 2 then
        .ret false (s1.setErr .tooLong)
      else
        let newSize := if s1.bufLen * 2 = 0 then startBufSize else s1.bufLen * 2
        let s2 : Scanner := { s1 with bufLen := min newSize s1.maxTokenSize, start := 0 }
        s2.readLoop maxConsecutiveEmptyReads
    else s1.readLoop maxConsecutiveEmptyReads

/-- One pass through the body of the loop `for` of `Scan`. -/
def Scanner.iter (s : Scanner) : Step :=
  if s.end_ > s.start ∨ s.err ≠ none then
    match ScanLines s.win (decide (s.err ≠ none)) with
    | (_, token, some e) =>
      if e = .finalToken then .ret token.isSome { s with token := token, done := true }
      else .ret false (s.setErr e)
    | (adv, token, none) =>
      match s.advance adv with
      | (s1, false) => .ret false s1
      | (s1, true) =>
        let s2 : Scanner := { s1 with token := token }
        if token.isSome then
          if s2.err = none ∨ adv > 0 then .ret true { s2 with empties := 0 }
          else if s2.empties + 1 > maxConsecutiveEmptyReads then .panicked
          else .ret true { s2 with empties := s2.empties + 1 }
        else s2.fill
  else s.fill

/-- Result of a call of `Scan`. -/
inductive ScanResult
  | ret (ok : Bool) (s : Scanner)
  | blocked (s : Scanner)
  | panicked
  | outOfFuel
  deriving DecidableEq, Repr

/-- The loop `for` of `Scan`, run for at most `fuel` passes. -/
def Scanner.scanLoop : Nat → Scanner → ScanResult
  | 0, _ => .outOfFuel
  | fuel + 1, s =>
    match s.iter with
    | .ret ok s1 => .ret ok s1
    | .again s1 => Scanner.scanLoop fuel s1
    | .blocked s1 => .blocked s1
    | .panicked => .panicked

/-- Method `Scan`.  Every pass that does not return takes something off the script or sets
the error, after which one more pass returns: `size + 2` passes are enough. -/
def Scanner.Scan (s : Scanner) : ScanResult :=
  if s.done = true then .ret false s else s.scanLoop (s.r.size + 2)

/-- Method `Text`. -/
def Scanner.Text (s : Scanner) : List Byte := s.token.getD []

/-! ## The connection handler: lines 86 to 91 of `main` -/

/-- What the handler of one connection does, in order: `sc.Scan()` returns true with a
token, `fmt.Println` writes to the standard output, `fmt.Fprintf` writes to the
connection, `conn.Close()`. -/
inductive Event
  | scan (text : List Byte)
  | stdout (bytes : List Byte)
  | write (bytes : List Byte)
  | close
  deriving DecidableEq, Repr

/-- The body of the loop `for sc.Scan()`, after `Scan` has returned true:
`fmt.Println("->", sc.Text())` and `fmt.Fprintf(conn, "OK %d\n", len(sc.Text()))`. -/
def lineEvents (sc : Scanner) : List Event :=
  [.scan sc.Text,
   .stdout (lit "-> " ++ sc.Text ++ [nl]),
   .write (lit "OK " ++ fmtInt (Int.ofNat sc.Text.length) ++ [nl])]

/-- How the handling of a connection ends: the line loop ended and the connection was
closed (with the error the Scanner holds), or a `Read` never returned. -/
inductive Status
  | closed (err : Option ScanErr)
  | blocked
  | panicked
  | outOfFuel
  deriving DecidableEq, Repr

/-- The events of a handler and how it ended. -/
structure Outcome where
  events : List Event
  status : Status
  deriving DecidableEq, Repr

/-- The loop `for sc.Scan() ...` followed by `conn.Close()`, for at most `fuel` calls of
`Scan`. -/
def handleLoop : Nat → Scanner → Outcome
  | 0, _ => ⟨[], .outOfFuel⟩
  | fuel + 1, sc =>
    match sc.Scan with
    | .ret true sc1 =>
      let o := handleLoop fuel sc1
      ⟨lineEvents sc1 ++ o.events, o.status⟩
    | .ret false sc1 => ⟨[.close], .closed sc1.err⟩
    | .blocked _ => ⟨[], .blocked⟩
    | .panicked => ⟨[], .panicked⟩
    | .outOfFuel => ⟨[], .outOfFuel⟩

/-- Lines 86 to 91 on a connection whose read side is `r`.  Every call of `Scan` that
returns true consumes a byte, so `size + 1` calls are enough. -/
def handleConn (r : Reader) : Outcome :=
  handleLoop (r.size + 1) (NewScanner r)

/-- The byte slices written to the connection, in order. -/
def writes (evs : List Event) : List (List Byte) :=
  evs.filterMap (fun e => match e with
    | .write b => some b
    | _ => none)

/-! ## Vocabulary of the statements -/

/-- Well-formed Scanner states: the token limit is the default one, the buffer is no longer
than it, the window lies inside the buffer, no final token was met, and no chunk of the
script is empty. -/
structure Scanner.WF (s : Scanner) : Prop where
  max : s.maxTokenSize = MaxScanTokenSize
  cap : s.bufLen ≤ MaxScanTokenSize
  fits : s.start + s.win.length ≤ s.bufLen
  notDone : s.done = false
  chunks : ∀ c ∈ s.r.pending, c ≠ []

/-- The bytes of the stream that no token has consumed yet. -/
def Scanner.unread (s : Scanner) : List Byte := s.win ++ s.r.pending.flatten

/-- The measure that decreases with every token: bytes in the window plus size of the
script. -/
def Scanner.weight (s : Scanner) : Nat := s.win.length + s.r.size

/-- The events of one pass of the line loop on a token `text`. -/
def lineTrace (text : List Byte) : List Event :=
  [.scan text, .stdout (lit "-> " ++ text ++ [nl]),
   .write (lit "OK " ++ fmtNat text.length ++ [nl])]

/-- What a client sends for a sequence of lines: each line followed by a newline. -/
def sendLines (lines : List (List Byte)) : List Byte :=
  (lines.map (fun L => L ++ [nl])).flatten

/-- A transport whose `Read` returns at least one byte or an error, as that of a `net.Conn`
does when given a non-empty slice. -/
def Reader.Proper (r : Reader) : Prop := ∀ c ∈ r.pending, c ≠ []

/-- All the bytes a script delivers. -/
def Reader.stream (r : Reader) : List Byte := r.pending.flatten

instance (r : Reader) : Decidable r.Proper := by
  unfold Reader.Proper
  infer_instance

/-! ## The program: function `main` -/

/-- The command-line flags `-hostname`, `-dir`, `-net-listen` and `-port`. -/
structure Config where
  hostname : List Byte
  stateDir : List Byte
  useNet : Bool
  port : Int
  deriving DecidableEq, Repr

/-- The log statements of `main`, by what they report. -/
inductive LogMsg
  | mustHostname
  | mustPort
  | bypassing
  | startingTsnet
  | listenFailed
  | listening
  | acceptFailed
  | connected
  | serverClose
  deriving DecidableEq, Repr

/-- The two functions `listen` can be bound to: `net.Listen` and `srv.Listen`. -/
inductive Via
  | net
  | tsnet
  deriving DecidableEq, Repr

/-- What the process does and what happens to it, in order.  `conn id e` is the event `e`
of the handler on the connection accepted as number `id`; `interrupt` is the delivery of
`os.Interrupt`, which cancels the context; `listenerClose` is `lst.Close()` in the goroutine
of line 77; `cancel` is the deferred `cancel()`; `exit` ends the process. -/
inductive MainEvent
  | log (m : LogMsg)
  | newServer (hostname dir : List Byte)
  | listen (via : Via) (network address : List Byte)
  | interrupt
  | listenerClose
  | accepted (id : Nat)
  | conn (id : Nat) (e : Event)
  | cancel
  | serverClose
  | exit (code : Nat)
  deriving DecidableEq, Repr

/-- Where the main goroutine stands: at the test `ctx.Err() == nil` of line 79, inside
`lst.Accept()` of line 80, at the call `sc.Scan()` of line 87 on connection `id`, or gone
with the process. -/
inductive PC
  | loopHead
  | accept
  | handling (id : Nat) (sc : Scanner)
  | exited (code : Nat)
  deriving DecidableEq, Repr

/-- The state of the process and of its listener. `tsnet` records that the deferred call of
line 65 is registered; `queue` holds the connections established by clients and not yet
returned by `Accept`. -/
structure State where
  pc : PC
  tsnet : Bool
  cancelled : Bool
  lstClosed : Bool
  lstFailed : Bool
  queue : List Reader
  nextId : Nat
  trace : List MainEvent
  deriving DecidableEq, Repr

/-- A call of `log.Fatal` or `log.Fatalf`: the message is printed and `os.Exit(1)` ends the
process; deferred calls are not run. -/
def fatal (tsnet : Bool) (trace : List MainEvent) (m : LogMsg) : State :=
  { pc := .exited 1, tsnet := tsnet, cancelled := false, lstClosed := false,
    lstFailed := false, queue := [], nextId := 0, trace := trace ++ [.log m, .exit 1] }

/-- Lines 45 to 50 of `main`, the validation of the flags: the message of the fatal error,
if there is one. -/
def validate (cfg : Config) : Option LogMsg :=
  if cfg.hostname = [] then some .mustHostname
  else if cfg.port = 0 then some .mustPort
  else none

/-- Lines 52 to 78 of `main`: the choice of the listener, the call of `listen`,
`signal.NotifyContext` and the start of the goroutine that waits for the context.
`listenOK` tells whether the call of `listen` succeeds. -/
def setup (cfg : Config) (listenOK : Bool) : State :=
  let isLocal : Bool := cfg.hostname = lit "localhost"
  let chosen : List MainEvent :=
    if isLocal then [.log .bypassing]
    else [.log .startingTsnet, .newServer cfg.hostname cfg.stateDir]
  let via : Via := if isLocal then .net else .tsnet
  let tr : List MainEvent :=
    chosen ++ [.listen via (lit "tcp") (cfg.hostname ++ lit ":" ++ fmtInt cfg.port)]
  if listenOK then
    { pc := .loopHead, tsnet := !isLocal, cancelled := false, lstClosed := false,
      lstFailed := false, queue := [], nextId := 0, trace := tr ++ [.log .listening] }
  else fatal (!isLocal) tr .listenFailed

/-- Lines 44 to 78 of `main`: the state in which the accept loop is entered, or the end of
the process on a fatal error. -/
def start (cfg : Config) (listenOK : Bool) : State :=
  match validate cfg with
  | some m => fatal false [] m
  | none => setup cfg listenOK

/-- Leaving `main` by `return` or by a panic: the deferred calls run, last registered first,
`cancel()` and then, if registered, the call of line 65 that closes the server and logs
the result; then the process ends. -/
def leave (st : State) (code : Nat) : State :=
  { st with
    pc := .exited code
    cancelled := true
    trace := st.trace ++ [.cancel] ++
      (if st.tsnet then [.serverClose, .log .serverClose] else []) ++ [.exit code] }

/-- What can happen next: the main goroutine runs to its next program point; the interrupt
signal is delivered; the goroutine of line 77 runs; a client establishes a connection, on
which it will behave as the script `peer`; the listener breaks. -/
inductive Action
  | main
  | interrupt
  | watcher
  | dial (peer : Reader)
  | breakListener
  deriving DecidableEq, Repr

/-- One step of the main goroutine: the test of the accept loop, the return of `Accept`, or
one call of `sc.Scan()` with the body of the line loop or `conn.Close()` after it.  Inside
`Accept` with an open listener and no client, and inside a `Read` that never returns, the
goroutine stays where it is.  The fuel of `Scan` never runs out. -/
def stepMain (st : State) : State :=
  match st.pc with
  | .exited _ => st
  | .loopHead => if st.cancelled then leave st 0 else { st with pc := .accept }
  | .accept =>
    if st.lstClosed ∨ st.lstFailed then
      leave { st with trace := st.trace ++ [.log .acceptFailed] } 0
    else
      match st.queue with
      | [] => st
      | peer :: rest =>
        { st with
          pc := .handling st.nextId (NewScanner peer)
          queue := rest
          nextId := st.nextId + 1
          trace := st.trace ++ [.accepted st.nextId, .log .connected] }
  | .handling id sc =>
    match sc.Scan with
    | .ret true sc1 =>
      { st with pc := .handling id sc1
                trace := st.trace ++ (lineEvents sc1).map (MainEvent.conn id) }
    | .ret false _ => { st with pc := .loopHead, trace := st.trace ++ [.conn id .close] }
    | .blocked _ => st
    | .panicked => leave st 2
    | .outOfFuel => st

/-- One step of the system.  Nothing happens once the process has ended.  The goroutine of
line 77 closes the listener once the context is cancelled, and the connections still
queued are lost; a client cannot connect to a closed or broken listener. -/
def step (st : State) (a : Action) : State :=
  match st.pc with
  | .exited _ => st
  | _ =>
    match a with
    | .main => stepMain st
    | .interrupt => { st with cancelled := true, trace := st.trace ++ [.interrupt] }
    | .watcher =>
      if st.cancelled ∧ ¬ st.lstClosed then
        { st with lstClosed := true, queue := [], trace := st.trace ++ [.listenerClose] }
      else st
    | .dial peer =>
      if st.lstClosed ∨ st.lstFailed then st else { st with queue := st.queue ++ [peer] }
    | .breakListener => { st with lstFailed := true, queue := [] }

/-- The state reached from `st` by a schedule of actions. -/
def run (st : State) (sched : List Action) : State :=
  sched.foldl step st

/-- The calls of `listen` in a trace: the function called, the network and the address. -/
def listens (tr : List MainEvent) : List (Via × List Byte × List Byte) :=
  tr.filterMap (fun e => match e with
    | .listen via network address => some (via, network, address)
    | _ => none)

/-- The overlay clients constructed in a trace: `Hostname` and `Dir` of each. -/
def servers (tr : List MainEvent) : List (List Byte × List Byte) :=
  tr.filterMap (fun e => match e with
    | .newServer hostname dir => some (hostname, dir)
    | _ => none)

/-- The events of the handler of connection `id` in a trace. -/
def connTrace (id : Nat) (tr : List MainEvent) : List Event :=
  tr.filterMap (fun e => match e with
    | .conn i ev => if i = id then some ev else none
    | _ => none)

/-- Whether an event is the return of `Accept` with a connection. -/
def isAccepted : MainEvent → Bool
  | .accepted _ => true
  | _ => false

/-- A property `P` of the trace so far holds at every return of `Accept` with a
connection. -/
def AtAccept (P : List MainEvent → Prop) (tr : List MainEvent) : Prop :=
  ∀ (p q : List MainEvent) (id : Nat), tr = p ++ .accepted id :: q → P p

/-- Every connection accepted so far has been closed, unless it is the one the main
goroutine is handling or the process has ended. -/
def State.Settled (st : State) : Prop :=
  ∀ j, MainEvent.accepted j ∈ st.trace →
    MainEvent.conn j .close ∈ st.trace ∨ (∃ sc, st.pc = .handling j sc) ∨ (∃ c, st.pc = .exited c)

/-- Once `lst.Close()` has run the listener is closed for good, as long as the process
lives. -/
def State.CloseSeen (st : State) : Prop :=
  MainEvent.listenerClose ∈ st.trace → st.lstClosed = true ∨ (∃ c, st.pc = .exited c)

/-- The number of connections accepted in a trace. -/
def acceptCount (tr : List MainEvent) : Nat := tr.countP isAccepted

/-- A peer that connects and then neither sends a byte nor closes. -/
def silentPeer : Reader := ⟨[], .silent⟩

/-- States of a system whose first client is `peer`: it waits first in the queue and nothing
was accepted yet, or the listener is gone, or it is the only connection ever accepted and
the main goroutine is at its first call of `Scan`. -/
def State.Behind (peer : Reader) (st : State) : Prop :=
  (acceptCount st.trace = 0 ∧ (st.pc = .loopHead ∨ st.pc = .accept) ∧
      (st.queue.head? = some peer ∨
        (st.queue = [] ∧ (st.lstClosed = true ∨ st.lstFailed = true)))) ∨
    (acceptCount st.trace ≤ 1 ∧
      ((∃ id, st.pc = .handling id (NewScanner peer)) ∨ (∃ c, st.pc = .exited c)))

/-- States after the interrupt: the context is cancelled as long as the process lives; and of
the connections accepted, `k` were accepted before the interrupt and at most `b` after it,
none yet if the main goroutine is still inside `Accept`, which it can only be if it was
there when the interrupt came (`b = 1`). -/
def State.PastInterrupt (k b : Nat) (st : State) : Prop :=
  (st.cancelled = true ∨ (∃ c, st.pc = .exited c)) ∧
    ((st.pc = .accept ∧ acceptCount st.trace = k ∧ b = 1) ∨
      (st.pc ≠ .accept ∧ acceptCount st.trace ≤ k + b))

/-- States of a broken listener: `Accept` fails, as long as the process lives. -/
def State.Broken (st : State) : Prop :=
  st.lstFailed = true ∨ (∃ c, st.pc = .exited c)

/-! ## The Scanner on a stream of lines -/

theorem indexByte_line (L W : List Byte) (h : nl ∉ L) :
    IndexByte (L ++ nl :: W) nl = some L.length := by
  have hi : (L ++ nl :: W).indexOf nl = L.length := by
    induction L with
    | nil => simp
    | cons a t ih =>
      have ha : a ≠ nl := fun e => h (by simp [e])
      have ht : nl ∉ t := fun e => h (by simp [e])
      simp [List.indexOf_cons, ha, ih ht]
  unfold IndexByte
  rw [hi]
  simp

theorem indexByte_none (w : List Byte) (h : nl ∉ w) : IndexByte w nl = none := by
  unfold IndexByte
  have : w.indexOf nl = w.length := List.indexOf_eq_length.mpr h
  simp [this]

theorem ScanLines_line (L W : List Byte) (b : Bool) (h : nl ∉ L) :
    ScanLines (L ++ nl :: W) b = (L.length + 1, some (dropCR L), none) := by
  unfold ScanLines
  rw [indexByte_line L W h]
  simp

theorem ScanLines_more (w : List Byte) (h : nl ∉ w) :
    ScanLines w false = (0, none, none) := by
  unfold ScanLines
  rw [indexByte_none w h]
  simp

theorem ScanLines_final (w : List Byte) (h : nl ∉ w) (hne : w ≠ []) :
    ScanLines w true = (w.length, some (dropCR w), none) := by
  unfold ScanLines
  rw [indexByte_none w h]
  simp [hne]

theorem ScanLines_nil (b : Bool) : ScanLines [] b = (0, none, none) := by
  cases b <;> simp [ScanLines, IndexByte]


theorem iter_line (s : Scanner) (L W : List Byte) (herr : s.err = none)
    (hw : s.win = L ++ nl :: W) (hL : nl ∉ L) :
    s.iter = .ret true { s with start := s.start + (L.length + 1), win := W,
                                token := some (dropCR L), empties := 0 } := by
  obtain ⟨r, mts, tok, bufLen, start, win, err, empties, done⟩ := s
  simp only at herr hw
  subst herr hw
  unfold Scanner.iter
  simp [Scanner.end_, ScanLines_line, hL, Scanner.advance]

theorem iter_fill (s : Scanner) (herr : s.err = none) (hw : nl ∉ s.win) :
    ∃ t, s.iter = Scanner.fill { s with token := t } := by
  obtain ⟨r, mts, tok, bufLen, start, win, err, empties, done⟩ := s
  simp only at herr hw
  subst herr
  by_cases hnil : win = []
  · refine ⟨tok, ?_⟩
    subst hnil
    unfold Scanner.iter
    simp [Scanner.end_]
  · refine ⟨none, ?_⟩
    have hpos : 0 < win.length := List.length_pos.mpr hnil
    unfold Scanner.iter
    simp [Scanner.end_, ScanLines_more _ hw, Scanner.advance, hpos]

theorem fill_prep (s : Scanner) (hwf : s.WF) (herr : s.err = none)
    (hlen : s.win.length < MaxScanTokenSize) :
    ∃ s2 : Scanner, s.fill = s2.readLoop maxConsecutiveEmptyReads ∧ s2.win = s.win ∧
      s2.r = s.r ∧ s2.err = none ∧ s2.end_ < s2.bufLen ∧ s2.WF := by
  obtain ⟨hmax, hcap, hfits, hdone, hch⟩ := hwf
  obtain ⟨r, mts, tok, bufLen, start, win, err, empties, done⟩ := s
  simp only at herr hlen hmax hcap hfits hdone hch
  subst herr hmax
  have hmi : maxInt / 2 = 4611686018427387903 := by decide
  have hM : MaxScanTokenSize = 65536 := by decide
  unfold Scanner.fill
  simp only [ne_eq, not_true_eq_false, if_false]
  by_cases hshift : start > 0 ∧ (start + win.length = bufLen ∨ start > bufLen / 2)
  · simp only [Scanner.end_, hshift, and_self, if_true]
    by_cases hfull : win.length = bufLen
    · have hnot : ¬ (bufLen ≥ MaxScanTokenSize ∨ bufLen > maxInt / 2) := by
        rw [hmi]; omega
      simp only [hfull, zero_add, if_true, hnot, if_false]
      refine ⟨_, rfl, rfl, rfl, rfl, ?_, ?_⟩
      · simp only [Scanner.end_, startBufSize, hM, zero_add]
        split <;> omega
      · refine ⟨rfl, ?_, ?_, hdone, hch⟩
        · simp only; omega
        · simp only [startBufSize, hM, zero_add]
          split <;> omega
    · simp only [zero_add, hfull, if_false]
      refine ⟨_, rfl, rfl, rfl, rfl, ?_, ?_⟩
      · simp only [Scanner.end_, zero_add]; omega
      · exact ⟨rfl, hcap, by simp only [zero_add]; omega, hdone, hch⟩
  · simp only [Scanner.end_, hshift, if_false]
    by_cases hfull : start + win.length = bufLen
    · have hs0 : start = 0 := by
        by_contra hne
        exact hshift ⟨Nat.pos_of_ne_zero hne, Or.inl hfull⟩
      have hnot : ¬ (bufLen ≥ MaxScanTokenSize ∨ bufLen > maxInt / 2) := by
        rw [hmi]; omega
      simp only [hfull, if_true, hnot, if_false]
      refine ⟨_, rfl, rfl, rfl, rfl, ?_, ?_⟩
      · simp only [Scanner.end_, startBufSize, hM, zero_add]
        split <;> omega
      · refine ⟨rfl, ?_, ?_, hdone, hch⟩
        · simp only; omega
        · simp only [startBufSize, hM, zero_add]
          split <;> omega
    · simp only [hfull, if_false]
      refine ⟨_, rfl, rfl, rfl, rfl, ?_, ⟨rfl, hcap, hfits, hdone, hch⟩⟩
      simp only [Scanner.end_]; omega

theorem fill_tooLong (s : Scanner) (hwf : s.WF) (herr : s.err = none)
    (hlen : MaxScanTokenSize ≤ s.win.length) :
    s.fill = .ret false { s with err := some .tooLong } := by
  obtain ⟨hmax, hcap, hfits, hdone, hch⟩ := hwf
  obtain ⟨r, mts, tok, bufLen, start, win, err, empties, done⟩ := s
  simp only at herr hlen hmax hcap hfits hdone hch
  subst herr hmax
  have hs0 : start = 0 := by omega
  have hb : bufLen = win.length := by omega
  subst hs0 hb
  unfold Scanner.fill
  simp [Scanner.end_, hlen, Scanner.setErr]

theorem readLoop_chunk (rem : Nat) (s : Scanner) (c : List Byte) (rest : List (List Byte))
    (hp : s.r.pending = c :: rest) (hc : c ≠ []) (hrest : ∀ x ∈ rest, x ≠ [])
    (hcap : s.end_ < s.bufLen) :
    ∃ (d : List Byte) (p : List (List Byte)), d ≠ [] ∧ d ++ p.flatten = c ++ rest.flatten ∧
      s.end_ + d.length ≤ s.bufLen ∧ (∀ x ∈ p, x ≠ []) ∧
      (p.map (fun c => c.length + 1)).sum + d.length
        ≤ ((c :: rest).map (fun c => c.length + 1)).sum ∧
      (p.map (fun c => c.length + 1)).sum < ((c :: rest).map (fun c => c.length + 1)).sum ∧
      s.readLoop rem = .again { s with r := { s.r with pending := p }, win := s.win ++ d,
                                       empties := 0 } := by
  obtain ⟨r, mts, tok, bufLen, start, win, err, empties, done⟩ := s
  obtain ⟨pending, ending⟩ := r
  simp only at hp
  subst hp
  simp only [Scanner.end_] at hcap ⊢
  have hcpos : 0 < c.length := List.length_pos.mpr hc
  by_cases hle : c.length ≤ bufLen - (start + win.length)
  · refine ⟨c, rest, hc, rfl, by omega, hrest, by simp; omega, by simp, ?_⟩
    have hnot : ¬ (bufLen - (start + win.length) < c.length) := by omega
    cases rem <;>
      simp [Scanner.readLoop, Scanner.readOnce, Reader.Read, Scanner.end_, hle, hnot, hcpos]
  · have hd : c.drop (bufLen - (start + win.length)) ≠ [] := by
      intro h
      have := congrArg List.length h
      simp at this
      omega
    have htl : (c.take (bufLen - (start + win.length))).length
        = bufLen - (start + win.length) := by
      simp; omega
    refine ⟨c.take (bufLen - (start + win.length)),
      c.drop (bufLen - (start + win.length)) :: rest, ?_, ?_, ?_, ?_, ?_, ?_, ?_⟩
    · intro h
      have := congrArg List.length h
      rw [htl] at this
      simp at this
      omega
    · simp only [List.flatten_cons, ← List.append_assoc, List.take_append_drop]
    · rw [htl]; omega
    · intro x hx
      rcases List.mem_cons.mp hx with h | h
      · rw [h]; exact hd
      · exact hrest x h
    · rw [htl]; simp; omega
    · simp; omega
    · have hnot : ¬ (bufLen - (start + win.length) < bufLen - (start + win.length)) := by omega
      have hmin : min (bufLen - (start + win.length)) c.length
          = bufLen - (start + win.length) := by omega
      have hpos : 0 < bufLen - (start + win.length) := by omega
      cases rem <;>
        simp [Scanner.readLoop, Scanner.readOnce, Reader.Read, Scanner.end_, hle, hmin, hpos,
          hc]

theorem readLoop_end (rem : Nat) (s : Scanner) (hp : s.r.pending = []) (herr : s.err = none)
    (e : ScanErr) (hend : s.r.ending = .eof ∧ e = .eof ∨ s.r.ending = .fail ∧ e = .readFailed) :
    s.readLoop rem = .again { s with err := some e } := by
  obtain ⟨r, mts, tok, bufLen, start, win, err, empties, done⟩ := s
  obtain ⟨pending, ending⟩ := r
  simp only at hp herr hend
  subst hp herr
  rcases hend with ⟨h1, h2⟩ | ⟨h1, h2⟩ <;> subst h1 h2 <;>
    cases rem <;> simp [Scanner.readLoop, Scanner.readOnce, Reader.Read, Scanner.setErr]

theorem readLoop_silent (rem : Nat) (s : Scanner) (hp : s.r.pending = [])
    (hend : s.r.ending = .silent) :
    s.readLoop rem = .blocked s := by
  obtain ⟨r, mts, tok, bufLen, start, win, err, empties, done⟩ := s
  obtain ⟨pending, ending⟩ := r
  simp only at hp hend
  subst hp hend
  cases rem <;> simp [Scanner.readLoop, Scanner.readOnce, Reader.Read]

theorem fill_read (s : Scanner) (hwf : s.WF) (herr : s.err = none)
    (hlen : s.win.length < MaxScanTokenSize) (hne : s.r.pending ≠ []) :
    ∃ s3 : Scanner, s.fill = .again s3 ∧ s3.WF ∧ s3.err = none ∧ s3.unread = s.unread ∧
      s3.r.ending = s.r.ending ∧ s3.r.size < s.r.size ∧ s3.weight ≤ s.weight := by
  obtain ⟨s2, hfill, hwin, hr, herr2, hcap2, hwf2⟩ := fill_prep s hwf herr hlen
  obtain ⟨c, rest, hp⟩ := List.exists_cons_of_ne_nil hne
  have hp2 : s2.r.pending = c :: rest := by rw [hr, hp]
  have hch := hwf.chunks
  rw [hp] at hch
  have hc : c ≠ [] := hch c (by simp)
  have hrest : ∀ x ∈ rest, x ≠ [] := fun x hx => hch x (by simp [hx])
  obtain ⟨d, p, hd, hdp, hfit, hpne, hsz1, hsz2, hloop⟩ :=
    readLoop_chunk maxConsecutiveEmptyReads s2 c rest hp2 hc hrest hcap2
  refine ⟨_, hfill.trans hloop, ⟨hwf2.max, hwf2.cap, ?_, hwf2.notDone, hpne⟩, herr2, ?_, ?_,
    ?_, ?_⟩
  · simp only [Scanner.end_, List.length_append] at hfit ⊢
    omega
  · simp only [Scanner.unread, hwin, hp, List.flatten_cons, List.append_assoc, hdp]
  · simp only [hr]
  · simp only [Reader.size, hp]
    exact hsz2
  · simp only [Scanner.weight, Reader.size, hp, hwin, List.length_append]
    omega

theorem fill_end (s : Scanner) (hwf : s.WF) (herr : s.err = none)
    (hlen : s.win.length < MaxScanTokenSize) (hp : s.r.pending = [])
    (e : ScanErr) (hend : s.r.ending = .eof ∧ e = .eof ∨ s.r.ending = .fail ∧ e = .readFailed) :
    ∃ s3 : Scanner, s.fill = .again s3 ∧ s3.WF ∧ s3.err = some e ∧ s3.win = s.win ∧
      s3.r = s.r := by
  obtain ⟨s2, hfill, hwin, hr, herr2, hcap2, hwf2⟩ := fill_prep s hwf herr hlen
  have hloop := readLoop_end maxConsecutiveEmptyReads s2 (by rw [hr, hp]) herr2 e
    (by rw [hr]; exact hend)
  exact ⟨_, hfill.trans hloop, ⟨hwf2.max, hwf2.cap, hwf2.fits, hwf2.notDone, hwf2.chunks⟩,
    rfl, hwin, hr⟩

theorem fill_silent (s : Scanner) (hwf : s.WF) (herr : s.err = none)
    (hlen : s.win.length < MaxScanTokenSize) (hp : s.r.pending = [])
    (hend : s.r.ending = .silent) :
    ∃ s3 : Scanner, s.fill = .blocked s3 := by
  obtain ⟨s2, hfill, hwin, hr, herr2, hcap2, hwf2⟩ := fill_prep s hwf herr hlen
  exact ⟨s2, hfill.trans (readLoop_silent _ s2 (by rw [hr, hp]) (by rw [hr, hend]))⟩

theorem WF_token (s : Scanner) (t : Option (List Byte)) (h : s.WF) :
    Scanner.WF { s with token := t } :=
  ⟨h.max, h.cap, h.fits, h.notDone, h.chunks⟩

theorem iter_read (s : Scanner) (hwf : s.WF) (herr : s.err = none) (hw : nl ∉ s.win)
    (hlen : s.win.length < MaxScanTokenSize) (hne : s.r.pending ≠ []) :
    ∃ s3 : Scanner, s.iter = .again s3 ∧ s3.WF ∧ s3.err = none ∧ s3.unread = s.unread ∧
      s3.r.ending = s.r.ending ∧ s3.r.size < s.r.size ∧ s3.weight ≤ s.weight := by
  obtain ⟨t, ht⟩ := iter_fill s herr hw
  rw [ht]
  exact fill_read _ (WF_token s t hwf) herr hlen hne

theorem iter_end (s : Scanner) (hwf : s.WF) (herr : s.err = none) (hw : nl ∉ s.win)
    (hlen : s.win.length < MaxScanTokenSize) (hp : s.r.pending = [])
    (e : ScanErr) (hend : s.r.ending = .eof ∧ e = .eof ∨ s.r.ending = .fail ∧ e = .readFailed) :
    ∃ s3 : Scanner, s.iter = .again s3 ∧ s3.WF ∧ s3.err = some e ∧ s3.win = s.win ∧
      s3.r = s.r := by
  obtain ⟨t, ht⟩ := iter_fill s herr hw
  rw [ht]
  exact fill_end _ (WF_token s t hwf) herr hlen hp e hend

theorem iter_silent (s : Scanner) (hwf : s.WF) (herr : s.err = none) (hw : nl ∉ s.win)
    (hlen : s.win.length < MaxScanTokenSize) (hp : s.r.pending = [])
    (hend : s.r.ending = .silent) :
    ∃ s3 : Scanner, s.iter = .blocked s3 := by
  obtain ⟨t, ht⟩ := iter_fill s herr hw
  rw [ht]
  exact fill_silent _ (WF_token s t hwf) herr hlen hp hend

theorem iter_tooLong (s : Scanner) (hwf : s.WF) (herr : s.err = none) (hw : nl ∉ s.win)
    (hlen : MaxScanTokenSize ≤ s.win.length) :
    ∃ s3 : Scanner, s.iter = .ret false s3 ∧ s3.err = some .tooLong := by
  obtain ⟨t, ht⟩ := iter_fill s herr hw
  rw [ht]
  exact ⟨_, fill_tooLong _ (WF_token s t hwf) herr hlen, rfl⟩

/-- Once the stream has ended, a pass over a non-empty window without newline returns it
as the last token. -/
theorem iter_last (s : Scanner) (e : ScanErr) (herr : s.err = some e) (hw : nl ∉ s.win)
    (hne : s.win ≠ []) :
    s.iter = .ret true { s with start := s.start + s.win.length, win := [],
                                token := some (dropCR s.win), empties := 0 } := by
  obtain ⟨r, mts, tok, bufLen, start, win, err, empties, done⟩ := s
  simp only at herr hw hne
  subst herr
  have hpos : 0 < win.length := List.length_pos.mpr hne
  unfold Scanner.iter
  simp [Scanner.end_, ScanLines_final _ hw hne, Scanner.advance, hpos]

/-- Once the stream has ended and the window is empty, a pass returns false. -/
theorem iter_stop (s : Scanner) (e : ScanErr) (herr : s.err = some e) (hw : s.win = []) :
    s.iter = .ret false { s with start := 0, win := [], token := none } := by
  obtain ⟨r, mts, tok, bufLen, start, win, err, empties, done⟩ := s
  simp only at herr hw
  subst herr hw
  unfold Scanner.iter
  simp [Scanner.end_, ScanLines_nil, Scanner.advance, Scanner.fill]

theorem split_unread (win J L R : List Byte) (h : win ++ J = L ++ nl :: R) (hL : nl ∉ L) :
    (∃ W, win = L ++ nl :: W ∧ R = W ++ J) ∨
    (∃ a, L = win ++ a ∧ J = a ++ nl :: R ∧ nl ∉ win) := by
  rcases List.append_eq_append_iff.mp h with ⟨a, ha, hJ⟩ | ⟨c, hc, hR⟩
  · right
    refine ⟨a, ha, hJ, ?_⟩
    intro hin
    exact hL (by rw [ha]; exact List.mem_append_left _ hin)
  · cases c with
    | nil =>
      right
      refine ⟨[], by simpa using hc.symm, by simpa using hR.symm, ?_⟩
      rw [hc]; simpa using hL
    | cons x c =>
      left
      simp only [List.cons_append, List.cons.injEq] at hR
      obtain ⟨hx, hR⟩ := hR
      exact ⟨c, by rw [hc, ← hx], hR⟩

theorem scanLoop_line (L R : List Byte) (hL : nl ∉ L) (hlen : L.length < MaxScanTokenSize) :
    ∀ (fuel : Nat) (s : Scanner), s.WF → s.err = none → s.unread = L ++ nl :: R →
      s.r.size < fuel →
      ∃ s', s.scanLoop fuel = .ret true s' ∧ s'.WF ∧ s'.err = none ∧
        s'.token = some (dropCR L) ∧ s'.unread = R ∧ s'.r.ending = s.r.ending ∧
        s'.weight < s.weight := by
  intro fuel
  induction fuel with
  | zero => intro s _ _ _ h; omega
  | succ fuel ih =>
    intro s hwf herr hun hfuel
    rcases split_unread _ _ _ _ hun hL with ⟨W, hw, hR⟩ | ⟨a, ha, hJ, hnw⟩
    · refine ⟨{ s with start := s.start + (L.length + 1), win := W,
                       token := some (dropCR L), empties := 0 },
        by simp only [Scanner.scanLoop, iter_line s L W herr hw hL], ?_, herr, rfl,
        by simp only [Scanner.unread, hR], rfl, ?_⟩
      · have hf := hwf.fits
        rw [hw] at hf
        simp only [List.length_append, List.length_cons] at hf
        exact ⟨hwf.max, hwf.cap, by simp only; omega, hwf.notDone, hwf.chunks⟩
      · simp only [Scanner.weight, hw, List.length_append, List.length_cons]
        omega
    · have hwl : s.win.length < MaxScanTokenSize := by
        have := congrArg List.length ha
        simp only [List.length_append] at this
        omega
      have hne : s.r.pending ≠ [] := by
        intro h
        rw [h] at hJ
        simp at hJ
      obtain ⟨s3, hit, hwf3, herr3, hun3, hend3, hsz3, hwt3⟩ := iter_read s hwf herr hnw hwl hne
      obtain ⟨s', hs', hwf', herr', htok', hun', hend', hwt'⟩ :=
        ih s3 hwf3 herr3 (hun3.trans hun) (by omega)
      refine ⟨s', ?_, hwf', herr', htok', hun', hend'.trans hend3, by omega⟩
      simp only [Scanner.scanLoop, hit, hs']

theorem scanLoop_stop (fuel : Nat) (s : Scanner) (e : ScanErr) (herr : s.err = some e)
    (hw : s.win = []) :
    ∃ s', s.scanLoop (fuel + 1) = .ret false s' ∧ s'.err = some e := by
  exact ⟨{ s with start := 0, win := [], token := none },
    by simp only [Scanner.scanLoop, iter_stop s e herr hw], herr⟩

theorem scanLoop_tail (T : List Byte) (hT : nl ∉ T) (hlen : T.length < MaxScanTokenSize)
    (en : Ending) (e : ScanErr) (hen : en = .eof ∧ e = .eof ∨ en = .fail ∧ e = .readFailed) :
    ∀ (fuel : Nat) (s : Scanner), s.WF → s.err = none → s.unread = T → s.r.ending = en →
      s.r.size + 1 < fuel →
      ∃ s', s'.err = some e ∧ s'.win = [] ∧
        ((T = [] ∧ s.scanLoop fuel = .ret false s') ∨
         (T ≠ [] ∧ s.scanLoop fuel = .ret true s' ∧ s'.token = some (dropCR T) ∧
           s'.done = false)) := by
  intro fuel
  induction fuel with
  | zero => intro s _ _ _ _ h; omega
  | succ fuel ih =>
    intro s hwf herr hun hend hfuel
    have hnw : nl ∉ s.win := by
      intro h
      exact hT (by rw [← hun]; exact List.mem_append_left _ h)
    have hwl : s.win.length < MaxScanTokenSize := by
      have := congrArg List.length hun
      simp only [Scanner.unread, List.length_append] at this
      omega
    by_cases hp : s.r.pending = []
    · obtain ⟨s3, hit, hwf3, herr3, hwin3, hr3⟩ :=
        iter_end s hwf herr hnw hwl hp e (by rw [hend]; exact hen)
      have hwT : s3.win = T := by
        rw [hwin3, ← hun]
        simp [Scanner.unread, hp]
      obtain ⟨fuel, rfl⟩ : ∃ k, fuel = k + 1 := ⟨fuel - 1, by omega⟩
      by_cases hTn : T = []
      · refine ⟨{ s3 with start := 0, win := [], token := none }, herr3, rfl,
          Or.inl ⟨hTn, ?_⟩⟩
        simp only [Scanner.scanLoop, hit, iter_stop s3 e herr3 (hwT.trans hTn)]
      · refine ⟨{ s3 with start := s3.start + s3.win.length, win := [],
                          token := some (dropCR s3.win), empties := 0 }, herr3, rfl,
          Or.inr ⟨hTn, ?_, by simp only [hwT], hwf3.notDone⟩⟩
        simp only [Scanner.scanLoop, hit,
          iter_last s3 e herr3 (by rw [hwT]; exact hT) (by rw [hwT]; exact hTn)]
    · obtain ⟨s3, hit, hwf3, herr3, hun3, hend3, hsz3, _⟩ := iter_read s hwf herr hnw hwl hp
      obtain ⟨s', h1, h2, h3⟩ := ih s3 hwf3 herr3 (hun3.trans hun) (hend3.trans hend) (by omega)
      refine ⟨s', h1, h2, ?_⟩
      simp only [Scanner.scanLoop, hit]
      exact h3

theorem scanLoop_silent (T : List Byte) (hT : nl ∉ T) (hlen : T.length < MaxScanTokenSize) :
    ∀ (fuel : Nat) (s : Scanner), s.WF → s.err = none → s.unread = T →
      s.r.ending = .silent → s.r.size < fuel →
      ∃ s', s.scanLoop fuel = .blocked s' := by
  intro fuel
  induction fuel with
  | zero => intro s _ _ _ _ h; omega
  | succ fuel ih =>
    intro s hwf herr hun hend hfuel
    have hnw : nl ∉ s.win := by
      intro h
      exact hT (by rw [← hun]; exact List.mem_append_left _ h)
    have hwl : s.win.length < MaxScanTokenSize := by
      have := congrArg List.length hun
      simp only [Scanner.unread, List.length_append] at this
      omega
    by_cases hp : s.r.pending = []
    · obtain ⟨s3, hit⟩ := iter_silent s hwf herr hnw hwl hp hend
      exact ⟨s3, by simp only [Scanner.scanLoop, hit]⟩
    · obtain ⟨s3, hit, hwf3, herr3, hun3, hend3, hsz3, _⟩ := iter_read s hwf herr hnw hwl hp
      obtain ⟨s', h1⟩ := ih s3 hwf3 herr3 (hun3.trans hun) (hend3.trans hend) (by omega)
      exact ⟨s', by simp only [Scanner.scanLoop, hit, h1]⟩

theorem scanLoop_tooLong :
    ∀ (fuel : Nat) (s : Scanner), s.WF → s.err = none →
      MaxScanTokenSize ≤ s.unread.length → nl ∉ s.unread.take MaxScanTokenSize →
      s.r.size < fuel →
      ∃ s', s.scanLoop fuel = .ret false s' ∧ s'.err = some .tooLong := by
  intro fuel
  induction fuel with
  | zero => intro s _ _ _ _ h; omega
  | succ fuel ih =>
    intro s hwf herr hlong hno hfuel
    have hwle : s.win.length ≤ MaxScanTokenSize := by
      have h1 := hwf.fits
      have h2 := hwf.cap
      omega
    have hnw : nl ∉ s.win := by
      intro h
      apply hno
      simp only [Scanner.unread, List.take_append_eq_append_take, List.mem_append]
      left
      rw [List.take_of_length_le hwle]
      exact h
    by_cases hfull : MaxScanTokenSize ≤ s.win.length
    · obtain ⟨s3, hit, he⟩ := iter_tooLong s hwf herr hnw hfull
      exact ⟨s3, by simp only [Scanner.scanLoop, hit], he⟩
    · have hp : s.r.pending ≠ [] := by
        intro h
        simp only [Scanner.unread, h, List.flatten_nil, List.append_nil] at hlong
        omega
      obtain ⟨s3, hit, hwf3, herr3, hun3, hend3, hsz3, _⟩ :=
        iter_read s hwf herr hnw (by omega) hp
      obtain ⟨s', h1, h2⟩ := ih s3 hwf3 herr3 (by rw [hun3]; exact hlong)
        (by rw [hun3]; exact hno) (by omega)
      exact ⟨s', by simp only [Scanner.scanLoop, hit, h1], h2⟩


theorem fmtInt_ofNat (n : Nat) : fmtInt (Int.ofNat n) = fmtNat n := by
  simp [fmtInt]

theorem lineEvents_eq (s : Scanner) (t : List Byte) (h : s.token = some t) :
    lineEvents s = lineTrace t := by
  have := fmtInt_ofNat t.length
  simp only [Int.ofNat_eq_coe] at this
  simp [lineEvents, lineTrace, Scanner.Text, h, this]

theorem Scan_eq (s : Scanner) (h : s.done = false) : s.Scan = s.scanLoop (s.r.size + 2) := by
  simp [Scanner.Scan, h]

theorem flatten_length_le (p : List (List Byte)) :
    p.flatten.length ≤ (p.map (fun c => c.length + 1)).sum := by
  induction p with
  | nil => simp
  | cons c p ih => simp; omega

theorem unread_le_weight (s : Scanner) : s.unread.length ≤ s.weight := by
  have := flatten_length_le s.r.pending
  simp only [Scanner.unread, Scanner.weight, Reader.size, List.length_append]
  omega

theorem handleLoop_line (L R : List Byte) (hL : nl ∉ L) (hlen : L.length < MaxScanTokenSize)
    (s : Scanner) (hwf : s.WF) (herr : s.err = none) (hun : s.unread = L ++ nl :: R) :
    ∃ s', s'.WF ∧ s'.err = none ∧ s'.unread = R ∧ s'.r.ending = s.r.ending ∧
      s'.weight < s.weight ∧
      ∀ fuel, handleLoop (fuel + 1) s =
        ⟨lineTrace (dropCR L) ++ (handleLoop fuel s').events, (handleLoop fuel s').status⟩ := by
  obtain ⟨s', hs', hwf', herr', htok', hun', hend', hwt'⟩ :=
    scanLoop_line L R hL hlen (s.r.size + 2) s hwf herr hun (by omega)
  refine ⟨s', hwf', herr', hun', hend', hwt', ?_⟩
  intro fuel
  simp only [handleLoop, Scan_eq s hwf.notDone, hs', lineEvents_eq s' _ htok']

theorem handleLoop_lines (X : List Byte) :
    ∀ (lines : List (List Byte)), (∀ L ∈ lines, nl ∉ L ∧ L.length < MaxScanTokenSize) →
      ∀ s : Scanner, s.WF → s.err = none → s.unread = sendLines lines ++ X →
      ∃ s', s'.WF ∧ s'.err = none ∧ s'.unread = X ∧ s'.r.ending = s.r.ending ∧
        s'.weight + lines.length ≤ s.weight ∧
        ∀ fuel, handleLoop (fuel + lines.length) s =
          ⟨lines.flatMap (fun L => lineTrace (dropCR L)) ++ (handleLoop fuel s').events,
           (handleLoop fuel s').status⟩ := by
  intro lines
  induction lines with
  | nil =>
    intro _ s hwf herr hun
    exact ⟨s, hwf, herr, by simpa [sendLines] using hun, rfl, by simp, by simp⟩
  | cons L lines ih =>
    intro hv s hwf herr hun
    have hL := hv L (by simp)
    have hun1 : s.unread = L ++ nl :: (sendLines lines ++ X) := by
      rw [hun]; simp [sendLines]
    obtain ⟨s1, hwf1, herr1, hun1', hend1, hwt1, hstep⟩ :=
      handleLoop_line L _ hL.1 hL.2 s hwf herr hun1
    obtain ⟨s', hwf', herr', hun', hend', hwt', hrest⟩ :=
      ih (fun B hB => hv B (by simp [hB])) s1 hwf1 herr1 hun1'
    refine ⟨s', hwf', herr', hun', hend'.trans hend1, by simp only [List.length_cons]; omega, ?_⟩
    intro fuel
    have h1 := hstep (fuel + lines.length)
    have h2 := hrest fuel
    rw [List.length_cons, ← Nat.add_assoc, h1, h2]
    simp

theorem handleLoop_tail_end (T : List Byte) (hT : nl ∉ T) (hlen : T.length < MaxScanTokenSize)
    (e : ScanErr) (s : Scanner) (hwf : s.WF) (herr : s.err = none) (hun : s.unread = T)
    (hen : s.r.ending = .eof ∧ e = .eof ∨ s.r.ending = .fail ∧ e = .readFailed)
    (fuel : Nat) (hfuel : s.weight < fuel) :
    handleLoop fuel s =
      ⟨(if T = [] then [] else lineTrace (dropCR T)) ++ [.close], .closed (some e)⟩ := by
  have hw := unread_le_weight s
  rw [hun] at hw
  obtain ⟨s', herr', hwin', hcase⟩ :=
    scanLoop_tail T hT hlen s.r.ending e hen (s.r.size + 2) s hwf herr hun rfl (by omega)
  rcases hcase with ⟨hTn, hs⟩ | ⟨hTn, hs, htok, hdone⟩
  · obtain ⟨fuel, rfl⟩ : ∃ k, fuel = k + 1 := ⟨fuel - 1, by omega⟩
    simp only [handleLoop, Scan_eq s hwf.notDone, hs, hTn, herr', if_true, List.nil_append]
  · have hpos : 0 < T.length := List.length_pos.mpr hTn
    obtain ⟨fuel, rfl⟩ : ∃ k, fuel = k + 2 := ⟨fuel - 2, by omega⟩
    obtain ⟨s'', hs'', herr''⟩ := scanLoop_stop (s'.r.size + 1) s' e herr' hwin'
    simp only [handleLoop, Scan_eq s hwf.notDone, hs, Scan_eq s' hdone, hs'', hTn, herr'',
      if_false, lineEvents_eq s' _ htok]

theorem handleLoop_tail_silent (T : List Byte) (hT : nl ∉ T)
    (hlen : T.length < MaxScanTokenSize) (s : Scanner) (hwf : s.WF) (herr : s.err = none)
    (hun : s.unread = T) (hen : s.r.ending = .silent) (fuel : Nat) (hfuel : s.weight < fuel) :
    handleLoop fuel s = ⟨[], .blocked⟩ := by
  obtain ⟨s', hs⟩ := scanLoop_silent T hT hlen (s.r.size + 2) s hwf herr hun hen (by omega)
  obtain ⟨fuel, rfl⟩ : ∃ k, fuel = k + 1 := ⟨fuel - 1, by omega⟩
  simp only [handleLoop, Scan_eq s hwf.notDone, hs]

theorem handleLoop_tooLong (s : Scanner) (hwf : s.WF) (herr : s.err = none)
    (hlong : MaxScanTokenSize ≤ s.unread.length) (hno : nl ∉ s.unread.take MaxScanTokenSize)
    (fuel : Nat) (hfuel : s.weight < fuel) :
    handleLoop fuel s = ⟨[.close], .closed (some .tooLong)⟩ := by
  obtain ⟨s', hs, he⟩ := scanLoop_tooLong (s.r.size + 2) s hwf herr hlong hno (by omega)
  obtain ⟨fuel, rfl⟩ : ∃ k, fuel = k + 1 := ⟨fuel - 1, by omega⟩
  simp only [handleLoop, Scan_eq s hwf.notDone, hs, he]

theorem WF_new (r : Reader) (h : r.Proper) : (NewScanner r).WF :=
  ⟨rfl, by simp [NewScanner], by simp [NewScanner], rfl, h⟩

/-- The handler of a connection whose stream starts with the lines `lines`: it runs the
loop body once for each line, in order, and goes on with the rest `X` of the stream. -/
theorem handleConn_lines (r : Reader) (hr : r.Proper) (lines : List (List Byte))
    (hv : ∀ L ∈ lines, nl ∉ L ∧ L.length < MaxScanTokenSize) (X : List Byte)
    (hs : r.stream = sendLines lines ++ X) :
    ∃ (s' : Scanner) (k : Nat), s'.WF ∧ s'.err = none ∧ s'.unread = X ∧
      s'.r.ending = r.ending ∧ s'.weight < k ∧
      handleConn r =
        ⟨lines.flatMap (fun L => lineTrace (dropCR L)) ++ (handleLoop k s').events,
         (handleLoop k s').status⟩ := by
  obtain ⟨s', hwf', herr', hun', hend', hwt', hrun⟩ :=
    handleLoop_lines X lines hv (NewScanner r) (WF_new r hr) rfl
      (by simpa [Scanner.unread, NewScanner, Reader.stream] using hs)
  have hw0 : (NewScanner r).weight = r.size := by simp [Scanner.weight, NewScanner]
  rw [hw0] at hwt'
  refine ⟨s', r.size + 1 - lines.length, hwf', herr', hun', hend', by omega, ?_⟩
  have := hrun (r.size + 1 - lines.length)
  rw [show r.size + 1 - lines.length + lines.length = r.size + 1 by omega] at this
  exact this

theorem writes_append (a b : List Event) : writes (a ++ b) = writes a ++ writes b := by
  simp [writes, List.filterMap_append]

theorem writes_lines (lines : List (List Byte)) :
    writes (lines.flatMap (fun L => lineTrace (dropCR L))) =
      lines.map (fun L => lit "OK " ++ fmtNat (dropCR L).length ++ [nl]) := by
  induction lines with
  | nil => rfl
  | cons L lines ih =>
    rw [List.flatMap_cons, writes_append, ih]
    simp [writes, lineTrace]

theorem count_sendLines (lines : List (List Byte)) (hv : ∀ L ∈ lines, nl ∉ L) :
    (sendLines lines).count nl = lines.length := by
  induction lines with
  | nil => rfl
  | cons L lines ih =>
    have h1 : L.count nl = 0 := List.count_eq_zero.mpr (hv L (by simp))
    have h2 := ih (fun B hB => hv B (by simp [hB]))
    simp only [sendLines] at h2
    simp [sendLines, List.count_append, h1, h2]

theorem handleConn_end (r : Reader) (hr : r.Proper) (lines : List (List Byte))
    (hv : ∀ L ∈ lines, nl ∉ L ∧ L.length < MaxScanTokenSize) (T : List Byte)
    (hT : nl ∉ T) (hlen : T.length < MaxScanTokenSize)
    (hs : r.stream = sendLines lines ++ T) (e : ScanErr)
    (hen : r.ending = .eof ∧ e = .eof ∨ r.ending = .fail ∧ e = .readFailed) :
    handleConn r =
      ⟨lines.flatMap (fun L => lineTrace (dropCR L)) ++
         ((if T = [] then [] else lineTrace (dropCR T)) ++ [.close]),
       .closed (some e)⟩ := by
  obtain ⟨s', k, hwf, herr, hun, hend, hk, hrun⟩ := handleConn_lines r hr lines hv T hs
  rw [hrun, handleLoop_tail_end T hT hlen e s' hwf herr hun (by rw [hend]; exact hen) k hk]

theorem handleConn_silent (r : Reader) (hr : r.Proper) (lines : List (List Byte))
    (hv : ∀ L ∈ lines, nl ∉ L ∧ L.length < MaxScanTokenSize) (T : List Byte)
    (hT : nl ∉ T) (hlen : T.length < MaxScanTokenSize)
    (hs : r.stream = sendLines lines ++ T) (hen : r.ending = .silent) :
    handleConn r = ⟨lines.flatMap (fun L => lineTrace (dropCR L)), .blocked⟩ := by
  obtain ⟨s', k, hwf, herr, hun, hend, hk, hrun⟩ := handleConn_lines r hr lines hv T hs
  rw [hrun, handleLoop_tail_silent T hT hlen s' hwf herr hun (by rw [hend]; exact hen) k hk]
  simp

theorem handleConn_tooLong (r : Reader) (hr : r.Proper) (lines : List (List Byte))
    (hv : ∀ L ∈ lines, nl ∉ L ∧ L.length < MaxScanTokenSize) (X : List Byte)
    (hlong : MaxScanTokenSize ≤ X.length) (hno : nl ∉ X.take MaxScanTokenSize)
    (hs : r.stream = sendLines lines ++ X) :
    handleConn r =
      ⟨lines.flatMap (fun L => lineTrace (dropCR L)) ++ [.close], .closed (some .tooLong)⟩ := by
  obtain ⟨s', k, hwf, herr, hun, hend, hk, hrun⟩ := handleConn_lines r hr lines hv X hs
  rw [hrun, handleLoop_tooLong s' hwf herr (by rw [hun]; exact hlong) (by rw [hun]; exact hno)
    k hk]

theorem handleConn_then (r : Reader) (hr : r.Proper) (before : List (List Byte))
    (hb : ∀ B ∈ before, nl ∉ B ∧ B.length < MaxScanTokenSize) (L rest : List Byte)
    (hL : nl ∉ L) (hlen : L.length < MaxScanTokenSize)
    (hs : r.stream = sendLines before ++ (L ++ nl :: rest)) :
    ∃ o : Outcome, handleConn r =
      ⟨before.flatMap (fun B => lineTrace (dropCR B)) ++ (lineTrace (dropCR L) ++ o.events),
       o.status⟩ := by
  have hv : ∀ B ∈ before ++ [L], nl ∉ B ∧ B.length < MaxScanTokenSize := by
    intro B hB
    rcases List.mem_append.mp hB with h | h
    · exact hb B h
    · rw [List.mem_singleton.mp h]; exact ⟨hL, hlen⟩
  obtain ⟨s', k, _, _, _, _, _, hrun⟩ := handleConn_lines r hr (before ++ [L]) hv rest
    (by rw [hs]; simp [sendLines])
  exact ⟨handleLoop k s', by rw [hrun]; simp⟩

theorem writes_then (before : List (List Byte)) (L : List Byte) (evs : List Event) :
    writes (before.flatMap (fun B => lineTrace (dropCR B)) ++ (lineTrace (dropCR L) ++ evs)) =
      before.map (fun B => lit "OK " ++ fmtNat (dropCR B).length ++ [nl]) ++
        [lit "OK " ++ fmtNat (dropCR L).length ++ [nl]] ++ writes evs := by
  rw [writes_append, writes_append, writes_lines]
  simp [writes, lineTrace]

theorem dropCR_append_cr (M : List Byte) : dropCR (M ++ [cr]) = M := by
  simp [dropCR]

theorem dropCR_of_ne (M : List Byte) (h : M.getLast? ≠ some cr) : dropCR M = M := by
  simp [dropCR, h]

theorem long_run_prefix (n : Nat) (b : Byte) (hb : b ≠ nl) (tail : List Byte)
    (hn : MaxScanTokenSize ≤ n) :
    MaxScanTokenSize ≤ (List.replicate n b ++ tail).length ∧
      nl ∉ (List.replicate n b ++ tail).take MaxScanTokenSize := by
  constructor
  · simp only [List.length_append, List.length_replicate]; omega
  · rw [List.take_append_of_le_length (by simp only [List.length_replicate]; exact hn)]
    intro h
    have := List.mem_of_mem_take h
    exact hb (List.eq_of_mem_replicate this).symm


/-- A connection whose only chunk starts with 65536 bytes other than the newline: the line
loop ends on `ErrTooLong` before any response is written. -/
theorem long_chunk_closed (X : List Byte) (hlong : MaxScanTokenSize ≤ X.length)
    (hno : nl ∉ X.take MaxScanTokenSize) (en : Ending) :
    handleConn ⟨[X], en⟩ = ⟨[.close], .closed (some .tooLong)⟩ := by
  have hr : Reader.Proper ⟨[X], en⟩ := by
    intro c hc
    rw [List.mem_singleton.mp hc]
    intro h
    rw [h] at hlong
    exact absurd hlong (by decide)
  rw [handleConn_tooLong ⟨[X], en⟩ hr [] (fun L hL => absurd hL (List.not_mem_nil L)) X
    hlong hno
    (by simp only [Reader.stream, sendLines, List.flatten_cons, List.flatten_nil, List.map_nil,
      List.append_nil, List.nil_append])]
  rfl

/-- The same for a chunk that starts with `n ≥ 65536` copies of a byte. -/
theorem long_line_closed (n : Nat) (b : Byte) (hb : b ≠ nl) (tail : List Byte)
    (hn : MaxScanTokenSize ≤ n) (en : Ending) :
    handleConn ⟨[List.replicate n b ++ tail], en⟩ = ⟨[.close], .closed (some .tooLong)⟩ := by
  obtain ⟨h1, h2⟩ := long_run_prefix n b hb tail hn
  exact long_chunk_closed _ h1 h2 en

/-- C1 (amended): a line `L` without newline byte and shorter than 65536 bytes, sent with
a newline after any number of such lines, is answered with exactly
`"OK " ++ decimal(n) ++ "\n"`, where `n` is the number of bytes of `L` without the newline
and without one carriage return at its end. -/
theorem C1_line_acknowledged (r : Reader) (hr : r.Proper) (before : List (List Byte))
    (hb : ∀ B ∈ before, nl ∉ B ∧ B.length < MaxScanTokenSize) (L rest : List Byte)
    (hL : nl ∉ L) (hlen : L.length < MaxScanTokenSize)
    (hs : r.stream = sendLines before ++ (L ++ nl :: rest)) :
    ∃ more, writes (handleConn r).events =
      before.map (fun B => lit "OK " ++ fmtNat (dropCR B).length ++ [nl]) ++
        [lit "OK " ++ fmtNat (dropCR L).length ++ [nl]] ++ more := by
  obtain ⟨o, ho⟩ := handleConn_then r hr before hb L rest hL hlen hs
  exact ⟨writes o.events, by rw [ho]; exact writes_then before L o.events⟩

/-- C1, witness: the line "hello" yields "OK 5\n" and the empty line yields "OK 0\n". -/
theorem C1_line_acknowledged_witness :
    (∃ more, writes (handleConn ⟨[lit "hello\n"], .eof⟩).events = [lit "OK 5\n"] ++ more) ∧
    (∃ more, writes (handleConn ⟨[lit "\n"], .eof⟩).events = [lit "OK 0\n"] ++ more) :=
  ⟨C1_line_acknowledged ⟨[lit "hello\n"], .eof⟩ (by decide) [] (by simp) (lit "hello") []
      (by decide) (by decide) (by decide),
   C1_line_acknowledged ⟨[lit "\n"], .eof⟩ (by decide) [] (by simp) [] []
      (by decide) (by decide) (by decide)⟩

/-- C1, counterexample: the line made of one carriage return is answered with "OK 0\n"
although it is one byte long, and a line of 65536 bytes is not answered at all. -/
theorem C1_counterexample :
    writes (handleConn ⟨[[cr, nl]], .eof⟩).events = [lit "OK 0\n"] ∧
    writes (handleConn ⟨[[cr, nl]], .eof⟩).events ≠ [lit "OK " ++ fmtNat [cr].length ++ [nl]] ∧
    writes (handleConn ⟨[List.replicate 65536 97 ++ [nl]], .eof⟩).events = [] := by
  refine ⟨by decide, by decide, ?_⟩
  rw [long_line_closed 65536 97 (by decide) [nl] (by decide) .eof]
  rfl

/-- C2 (amended): for lines L1..Ln without newline byte, each shorter than 65536 bytes, sent
newline-terminated on one connection, the handler runs, for each line in order, `Scan`
(taking the line), the print to the standard output and the write of
`"OK " ++ decimal(n_i) ++ "\n"`, where `n_i` counts the bytes of the line without one
carriage return at its end; the response to a line is written before the next line is
taken, exactly n responses are written, and the connection is closed when the stream ends. -/
theorem C2_lines_in_order (r : Reader) (hr : r.Proper) (lines : List (List Byte))
    (hv : ∀ L ∈ lines, nl ∉ L ∧ L.length < MaxScanTokenSize)
    (hs : r.stream = sendLines lines) :
    (handleConn r).events =
        lines.flatMap (fun L => [Event.scan (dropCR L),
          Event.stdout (lit "-> " ++ dropCR L ++ [nl]),
          Event.write (lit "OK " ++ fmtNat (dropCR L).length ++ [nl])]) ++
        (if r.ending = .silent then [] else [Event.close]) ∧
      writes (handleConn r).events =
        lines.map (fun L => lit "OK " ++ fmtNat (dropCR L).length ++ [nl]) := by
  have hs2 : r.stream = sendLines lines ++ [] := by rw [hs, List.append_nil]
  have hlen0 : ([] : List Byte).length < MaxScanTokenSize := by decide
  have key : (handleConn r).events =
      lines.flatMap (fun L => lineTrace (dropCR L)) ++
        (if r.ending = .silent then [] else [Event.close]) := by
    rcases hen : r.ending with _ | _ | _
    · rw [handleConn_end r hr lines hv [] (List.not_mem_nil _) hlen0 hs2 .eof
        (Or.inl ⟨hen, rfl⟩)]
      simp
    · rw [handleConn_end r hr lines hv [] (List.not_mem_nil _) hlen0 hs2 .readFailed
        (Or.inr ⟨hen, rfl⟩)]
      simp
    · rw [handleConn_silent r hr lines hv [] (List.not_mem_nil _) hlen0 hs2 hen]
      simp
  refine ⟨key, ?_⟩
  rw [key, writes_append, writes_lines]
  split <;> simp [writes]

/-- C2, witness: three lines in sequence yield three responses in the same order. -/
theorem C2_lines_in_order_witness :
    writes (handleConn ⟨[lit "a\nbc", lit "\n", lit "def\n"], .eof⟩).events =
      [lit "OK 1\n", lit "OK 2\n", lit "OK 3\n"] :=
  (C2_lines_in_order ⟨[lit "a\nbc", lit "\n", lit "def\n"], .eof⟩ (by decide)
    [lit "a", lit "bc", lit "def"] (by decide) (by decide)).2

/-- C2, counterexample: of the two lines "a\r" and "b" the first is answered with "OK 1\n"
although it is two bytes long; and of a line of 65536 bytes followed by the line "b"
neither is answered. -/
theorem C2_counterexample :
    writes (handleConn ⟨[lit "a\r\nb\n"], .eof⟩).events = [lit "OK 1\n", lit "OK 1\n"] ∧
    writes (handleConn ⟨[lit "a\r\nb\n"], .eof⟩).events ≠
      [lit "a\r", lit "b"].map (fun L => lit "OK " ++ fmtNat L.length ++ [nl]) ∧
    writes (handleConn ⟨[List.replicate 65536 97 ++ lit "\nb\n"], .eof⟩).events = [] := by
  refine ⟨by decide, by decide, ?_⟩
  rw [long_line_closed 65536 97 (by decide) (lit "\nb\n") (by decide) .eof]
  rfl

/-- C3 (amended): when the stream ends, by the peer closing or by a failed read, with a run
`T` of fewer than 65536 bytes after the last newline, the Scanner returns a non-empty `T`
as a last line and the handler writes a response for it: the responses are those of the
complete lines followed by the one for `T`, so their number is the number of newline bytes
received plus one; it is the number of newline bytes when nothing follows the last
newline. -/
theorem C3_trailing_run_answered (r : Reader) (hr : r.Proper) (lines : List (List Byte))
    (hv : ∀ L ∈ lines, nl ∉ L ∧ L.length < MaxScanTokenSize) (T : List Byte)
    (hT : nl ∉ T) (hlen : T.length < MaxScanTokenSize) (hen : r.ending ≠ .silent)
    (hs : r.stream = sendLines lines ++ T) :
    writes (handleConn r).events =
        lines.map (fun L => lit "OK " ++ fmtNat (dropCR L).length ++ [nl]) ++
          (if T = [] then [] else [lit "OK " ++ fmtNat (dropCR T).length ++ [nl]]) ∧
      (writes (handleConn r).events).length =
        r.stream.count nl + (if T = [] then 0 else 1) := by
  have hcount : r.stream.count nl = lines.length := by
    rw [hs, List.count_append, count_sendLines lines (fun L hL => (hv L hL).1),
      List.count_eq_zero.mpr hT, Nat.add_zero]
  have key : writes (handleConn r).events =
      lines.map (fun L => lit "OK " ++ fmtNat (dropCR L).length ++ [nl]) ++
        (if T = [] then [] else [lit "OK " ++ fmtNat (dropCR T).length ++ [nl]]) := by
    have hev : ∃ e, handleConn r =
        ⟨lines.flatMap (fun L => lineTrace (dropCR L)) ++
           ((if T = [] then [] else lineTrace (dropCR T)) ++ [.close]), .closed (some e)⟩ := by
      rcases h : r.ending with _ | _ | _
      · exact ⟨_, handleConn_end r hr lines hv T hT hlen hs .eof (Or.inl ⟨h, rfl⟩)⟩
      · exact ⟨_, handleConn_end r hr lines hv T hT hlen hs .readFailed (Or.inr ⟨h, rfl⟩)⟩
      · exact absurd h hen
    obtain ⟨e, he⟩ := hev
    rw [he, writes_append, writes_append, writes_lines]
    split <;> simp [writes, lineTrace]
  refine ⟨key, ?_⟩
  rw [key, hcount]
  split <;> simp

/-- C3, witness: two complete lines and the run "xyz" before the peer closes. -/
theorem C3_trailing_run_answered_witness :
    writes (handleConn ⟨[lit "he", lit "llo\nab\nxyz"], .eof⟩).events =
      [lit "OK 5\n", lit "OK 2\n", lit "OK 3\n"] :=
  (C3_trailing_run_answered ⟨[lit "he", lit "llo\nab\nxyz"], .eof⟩ (by decide)
    [lit "hello", lit "ab"] (by decide) (lit "xyz") (by decide) (by decide) (by decide)
    (by decide)).1

/-- C3, counterexample: the peer sends "abc" without newline and closes; the handler
writes the response "OK 3\n", one response for no newline byte. -/
theorem C3_counterexample :
    (handleConn ⟨[lit "abc"], .eof⟩).events =
      [.scan (lit "abc"), .stdout (lit "-> abc\n"), .write (lit "OK 3\n"), .close] ∧
    (writes (handleConn ⟨[lit "abc"], .eof⟩).events).length ≠
      (Reader.stream ⟨[lit "abc"], .eof⟩).count nl := by
  decide

/-- C4 (amended): the handler enforces the token limit of the Scanner, 65536 bytes.  After
any lines already answered: lines shorter than 65536 bytes are answered one after the other
and the handler goes on with what follows them; once 65536 bytes have arrived without a
newline the line loop ends on `ErrTooLong`, with no response for these bytes nor for
anything after them, and the connection is closed, however the stream goes on; a run of
fewer than 65536 bytes without newline on a connection whose peer stays silent makes the
handler wait. -/
theorem C4_token_limit (r : Reader) (hr : r.Proper) (before : List (List Byte))
    (hb : ∀ B ∈ before, nl ∉ B ∧ B.length < MaxScanTokenSize) (X : List Byte)
    (hs : r.stream = sendLines before ++ X) :
    (∀ (next : List (List Byte)) (rest : List Byte),
        (∀ L ∈ next, nl ∉ L ∧ L.length < MaxScanTokenSize) → X = sendLines next ++ rest →
        ∃ o : Outcome, handleConn r =
          ⟨(before ++ next).flatMap (fun L => lineTrace (dropCR L)) ++ o.events, o.status⟩) ∧
    (MaxScanTokenSize ≤ X.length → nl ∉ X.take MaxScanTokenSize →
        handleConn r =
          ⟨before.flatMap (fun L => lineTrace (dropCR L)) ++ [.close],
           .closed (some .tooLong)⟩) ∧
    (X.length < MaxScanTokenSize → nl ∉ X → r.ending = .silent →
        handleConn r = ⟨before.flatMap (fun L => lineTrace (dropCR L)), .blocked⟩) := by
  refine ⟨?_, ?_, ?_⟩
  · intro next rest hn hX
    have hv : ∀ B ∈ before ++ next, nl ∉ B ∧ B.length < MaxScanTokenSize := by
      intro B hB
      rcases List.mem_append.mp hB with h | h
      · exact hb B h
      · exact hn B h
    obtain ⟨s', k, _, _, _, _, _, hrun⟩ := handleConn_lines r hr (before ++ next) hv rest
      (by rw [hs, hX]; simp [sendLines])
    exact ⟨handleLoop k s', hrun⟩
  · intro hlong hno
    exact handleConn_tooLong r hr before hb X hlong hno hs
  · intro hlen hno hen
    exact handleConn_silent r hr before hb X hno hlen hs hen

/-- C4, witness: a line of 65535 bytes is answered, and so is the line after it. -/
theorem C4_token_limit_witness :
    ∃ o : Outcome, handleConn ⟨[List.replicate 65535 97 ++ lit "\nb\n"], .eof⟩ =
      ⟨([] ++ [List.replicate 65535 97, lit "b"]).flatMap (fun L => lineTrace (dropCR L)) ++
        o.events, o.status⟩ :=
  (C4_token_limit ⟨[List.replicate 65535 97 ++ lit "\nb\n"], .eof⟩
    (fun c hc => by
      rw [List.mem_singleton.mp hc]
      exact List.append_ne_nil_of_right_ne_nil _ (by decide))
    [] (fun B hB => absurd hB (List.not_mem_nil B))
    (List.replicate 65535 97 ++ lit "\nb\n")
    (by simp only [Reader.stream, sendLines, List.flatten_cons, List.flatten_nil,
      List.map_nil, List.append_nil, List.nil_append])).1
    [List.replicate 65535 97, lit "b"] []
    (fun L hL => by
      rcases List.mem_cons.mp hL with h | h
      · rw [h]
        exact ⟨fun hm => absurd (List.eq_of_mem_replicate hm) (by decide),
          by rw [List.length_replicate]; decide⟩
      · rw [List.mem_singleton.mp h]
        decide)
    (by simp only [sendLines, List.map_cons, List.map_nil, List.flatten_cons,
      List.flatten_nil, List.append_nil, List.append_assoc]; rfl)

/-- C4, counterexample: a newline-terminated line of 65536 bytes is not acknowledged, the
line loop ends on `ErrTooLong` and the connection is closed; and a run of 65536 bytes
without newline from a peer that then stays silent makes the handler close the connection
instead of waiting. -/
theorem C4_counterexample :
    handleConn ⟨[List.replicate 65536 97 ++ [nl]], .eof⟩ =
      ⟨[.close], .closed (some .tooLong)⟩ ∧
    handleConn ⟨[List.replicate 65536 97 ++ []], .silent⟩ =
      ⟨[.close], .closed (some .tooLong)⟩ :=
  ⟨long_line_closed 65536 97 (by decide) [nl] (by decide) .eof,
   long_line_closed 65536 97 (by decide) [] (by decide) .silent⟩

/-- C10 (amended): a line `M ++ "\r"` of fewer than 65536 bytes, with `M` free of newline
bytes, sent with a newline is answered with `"OK " ++ decimal(byteLength(M)) ++ "\n"`: the
reported length is one less than the number of bytes before the newline.  When `M` does
not itself end in a carriage return, this is also the response to `M` sent with a newline
alone. -/
theorem C10_carriage_return_dropped (before : List (List Byte))
    (hb : ∀ B ∈ before, nl ∉ B ∧ B.length < MaxScanTokenSize) (M : List Byte)
    (hM : nl ∉ M) (hlen : M.length + 1 < MaxScanTokenSize) :
    (∀ (r : Reader) (rest : List Byte), r.Proper →
        r.stream = sendLines before ++ (M ++ cr :: nl :: rest) →
        ∃ more, writes (handleConn r).events =
          before.map (fun B => lit "OK " ++ fmtNat (dropCR B).length ++ [nl]) ++
            [lit "OK " ++ fmtNat M.length ++ [nl]] ++ more) ∧
    (M.getLast? ≠ some cr →
      ∀ (r : Reader) (rest : List Byte), r.Proper →
        r.stream = sendLines before ++ (M ++ nl :: rest) →
        ∃ more, writes (handleConn r).events =
          before.map (fun B => lit "OK " ++ fmtNat (dropCR B).length ++ [nl]) ++
            [lit "OK " ++ fmtNat M.length ++ [nl]] ++ more) := by
  constructor
  · intro r rest hr hs
    have hL : nl ∉ M ++ [cr] := by
      intro h
      rcases List.mem_append.mp h with h | h
      · exact hM h
      · exact absurd (List.mem_singleton.mp h) (by decide)
    obtain ⟨o, ho⟩ := handleConn_then r hr before hb (M ++ [cr]) rest hL
      (by simp only [List.length_append, List.length_singleton]; exact hlen)
      (by rw [hs]; simp)
    refine ⟨writes o.events, ?_⟩
    rw [ho, writes_then, dropCR_append_cr]
  · intro hcr r rest hr hs
    obtain ⟨o, ho⟩ := handleConn_then r hr before hb M rest hM (by omega) hs
    refine ⟨writes o.events, ?_⟩
    rw [ho, writes_then, dropCR_of_ne M hcr]

/-- C10, witness: "hello\r\n" is answered with "OK 5\n". -/
theorem C10_carriage_return_dropped_witness :
    ∃ more, writes (handleConn ⟨[lit "hello\r\n"], .eof⟩).events = [lit "OK 5\n"] ++ more :=
  (C10_carriage_return_dropped [] (by simp) (lit "hello") (by decide) (by decide)).1
    ⟨[lit "hello\r\n"], .eof⟩ [] (by decide) (by decide)

/-- C10, counterexample: for `M` the single carriage return, `M ++ "\r\n"` is answered with
"OK 1\n" and `M ++ "\n"` with "OK 0\n", two different responses; and for `M` of 65535
bytes, `M ++ "\r\n"` is not answered. -/
theorem C10_counterexample :
    writes (handleConn ⟨[[cr] ++ [cr, nl]], .eof⟩).events = [lit "OK 1\n"] ∧
    writes (handleConn ⟨[[cr] ++ [nl]], .eof⟩).events = [lit "OK 0\n"] ∧
    writes (handleConn ⟨[List.replicate 65535 97 ++ [cr, nl]], .eof⟩).events = [] := by
  refine ⟨by decide, by decide, ?_⟩
  have hlong : MaxScanTokenSize ≤ (List.replicate 65535 (97 : Byte) ++ [cr, nl]).length := by
    rw [List.length_append, List.length_replicate]
    decide
  have hno : nl ∉ (List.replicate 65535 (97 : Byte) ++ [cr, nl]).take MaxScanTokenSize := by
    rw [List.take_append_eq_append_take, List.length_replicate]
    intro h
    rcases List.mem_append.mp h with h | h
    · exact absurd (List.eq_of_mem_replicate (List.mem_of_mem_take h)) (by decide)
    · revert h
      decide
  rw [long_chunk_closed _ hlong hno .eof]
  rfl

/-! ## Termination: the fuel of `Scan` and of the handler never runs out -/

theorem Read_size (r : Reader) (cap : Nat) (bytes : List Byte) (err : Option ScanErr)
    (r1 : Reader) (h : r.Read cap = .data bytes err r1) :
    r1.size + bytes.length ≤ r.size ∧ (0 < bytes.length → r1.size < r.size) := by
  obtain ⟨pending, ending⟩ := r
  cases pending with
  | nil =>
    cases ending <;> simp only [Reader.Read] at h
    · cases h; simp
    · cases h; simp
    · cases h
  | cons c rest =>
    simp only [Reader.Read] at h
    split at h
    · cases h
      simp only [Reader.size, List.map_cons, List.sum_cons]
      omega
    · rename_i hlt
      cases h
      simp only [Reader.size, List.map_cons, List.sum_cons, List.length_take, List.length_drop]
      omega

theorem setErr_of_none (s : Scanner) (e : ScanErr) (h : s.err = none) :
    s.setErr e = { s with err := some e } := by
  simp [Scanner.setErr, h]

/-- One pass of the read loop that breaks has set the error or has shortened the script;
it never makes the Scanner heavier. -/
theorem readOnce_brk (s s1 : Scanner) (herr : s.err = none) (h : s.readOnce = .brk s1) :
    ((s1.err ≠ none ∧ s1.r.size ≤ s.r.size) ∨ (s1.err = none ∧ s1.r.size < s.r.size)) ∧
      s1.weight ≤ s.weight := by
  unfold Scanner.readOnce at h
  split at h
  · cases h
  · rename_i bytes err r1 hread
    obtain ⟨hsz, hlt⟩ := Read_size _ _ _ _ _ hread
    split at h
    · cases h
      rw [setErr_of_none _ _ (by exact herr)]
      exact ⟨Or.inl ⟨by simp, by simp only; omega⟩, by simp only [Scanner.weight]; omega⟩
    · split at h
      · cases h
        rw [setErr_of_none _ _ (by exact herr)]
        exact ⟨Or.inl ⟨by simp, by simp only; omega⟩,
          by simp only [Scanner.weight, List.length_append]; omega⟩
      · split at h
        · rename_i hpos
          cases h
          exact ⟨Or.inr ⟨herr, hlt hpos⟩,
            by simp only [Scanner.weight, List.length_append]; omega⟩
        · cases h

theorem readOnce_empty (s s1 : Scanner) (h : s.readOnce = .empty s1) :
    s1.err = s.err ∧ s1.r.size ≤ s.r.size ∧ s1.weight ≤ s.weight := by
  unfold Scanner.readOnce at h
  split at h
  · cases h
  · rename_i bytes err r1 hread
    obtain ⟨hsz, hlt⟩ := Read_size _ _ _ _ _ hread
    split at h
    · cases h
    · split at h
      · cases h
      · split at h
        · cases h
        · cases h
          exact ⟨rfl, by simp only; omega,
            by simp only [Scanner.weight, List.length_append]; omega⟩

theorem readLoop_result (rem : Nat) :
    ∀ s : Scanner, s.err = none →
      (∃ s1, s.readLoop rem = .blocked s1) ∨
      (∃ s1, s.readLoop rem = .again s1 ∧
        ((s1.err ≠ none ∧ s1.r.size ≤ s.r.size) ∨ (s1.err = none ∧ s1.r.size < s.r.size)) ∧
        s1.weight ≤ s.weight) := by
  induction rem with
  | zero =>
    intro s herr
    unfold Scanner.readLoop
    cases h : s.readOnce with
    | blocked s1 => exact Or.inl ⟨s1, rfl⟩
    | brk s1 => exact Or.inr ⟨s1, rfl, readOnce_brk s s1 herr h⟩
    | empty s1 =>
      obtain ⟨h1, h2, h3⟩ := readOnce_empty s s1 h
      refine Or.inr ⟨_, rfl, ?_, ?_⟩
      · rw [setErr_of_none _ _ (h1.trans herr)]
        exact Or.inl ⟨by simp, h2⟩
      · rw [setErr_of_none _ _ (h1.trans herr)]
        exact h3
  | succ rem ih =>
    intro s herr
    unfold Scanner.readLoop
    cases h : s.readOnce with
    | blocked s1 => exact Or.inl ⟨s1, rfl⟩
    | brk s1 => exact Or.inr ⟨s1, rfl, readOnce_brk s s1 herr h⟩
    | empty s1 =>
      obtain ⟨h1, h2, h3⟩ := readOnce_empty s s1 h
      rcases ih s1 (h1.trans herr) with ⟨s2, hb⟩ | ⟨s2, ha, hm, hw⟩
      · exact Or.inl ⟨s2, hb⟩
      · refine Or.inr ⟨s2, ha, ?_, by omega⟩
        rcases hm with ⟨e1, e2⟩ | ⟨e1, e2⟩
        · exact Or.inl ⟨e1, by omega⟩
        · exact Or.inr ⟨e1, by omega⟩


/-- The second half of the loop body returns false, or reads with the script, the window
and the error it was given. -/
theorem fill_shape (s : Scanner) :
    (∃ s1, s.fill = .ret false s1) ∨
    (∃ s2 : Scanner, s.fill = s2.readLoop maxConsecutiveEmptyReads ∧ s.err = none ∧
      s2.err = none ∧ s2.r = s.r ∧ s2.win = s.win) := by
  obtain ⟨r, mts, tok, bufLen, start, win, err, empties, done⟩ := s
  unfold Scanner.fill
  by_cases herr : err = none
  · subst herr
    simp only [ne_eq, not_true_eq_false, if_false]
    split
    · split
      · split
        · exact Or.inl ⟨_, rfl⟩
        · exact Or.inr ⟨_, rfl, by simp, by simp, by simp, by simp⟩
      · exact Or.inr ⟨_, rfl, by simp, by simp, by simp, by simp⟩
    · split
      · split
        · exact Or.inl ⟨_, rfl⟩
        · exact Or.inr ⟨_, rfl, by simp, by simp, by simp, by simp⟩
      · exact Or.inr ⟨_, rfl, by simp, by simp, by simp, by simp⟩
  · simp only [ne_eq, herr, not_false_eq_true, if_true]
    exact Or.inl ⟨_, rfl⟩

theorem fill_again (s s1 : Scanner) (h : s.fill = .again s1) :
    s.err = none ∧
      ((s1.err ≠ none ∧ s1.r.size ≤ s.r.size) ∨ (s1.err = none ∧ s1.r.size < s.r.size)) ∧
      s1.weight ≤ s.weight := by
  rcases fill_shape s with ⟨s3, h3⟩ | ⟨s2, hf, he, he2, hr, hw⟩
  · rw [h3] at h; cases h
  · refine ⟨he, ?_⟩
    rw [hf] at h
    rcases readLoop_result maxConsecutiveEmptyReads s2 he2 with ⟨s3, hb⟩ | ⟨s3, ha, hm, hwt⟩
    · rw [hb] at h; cases h
    · rw [ha] at h
      cases h
      simp only [Scanner.weight, hr, hw] at hm hwt ⊢
      exact ⟨hm, hwt⟩

theorem fill_ret (s s1 : Scanner) (ok : Bool) (h : s.fill = .ret ok s1) : ok = false := by
  rcases fill_shape s with ⟨s3, h3⟩ | ⟨s2, hf, he, he2, hr, hw⟩
  · rw [h3] at h; cases h; rfl
  · rw [hf] at h
    rcases readLoop_result maxConsecutiveEmptyReads s2 he2 with ⟨s3, hb⟩ | ⟨s3, ha, _⟩
    · rw [hb] at h; cases h
    · rw [ha] at h; cases h

/-- The function `ScanLines` reports no error, and a token comes with a positive
advance. -/
theorem ScanLines_shape (data : List Byte) (b : Bool) :
    ∃ adv tok, ScanLines data b = (adv, tok, none) ∧ (tok.isSome = true → 0 < adv) := by
  unfold ScanLines
  split
  · exact ⟨0, none, rfl, by simp⟩
  · rename_i hne
    split
    · exact ⟨_, _, rfl, by simp⟩
    · split
      · rename_i hb
        refine ⟨_, _, rfl, ?_⟩
        intro _
        have : data.length ≠ 0 := fun h0 => hne ⟨hb, h0⟩
        omega
      · exact ⟨0, none, rfl, by simp⟩

/-- A pass of the loop of `Scan`: if it goes round again the script got shorter or the
error is set; if it returns true the Scanner got lighter. -/
theorem iter_result (s s1 : Scanner) :
    (s.iter = .again s1 →
      s.err = none ∧
        ((s1.err ≠ none ∧ s1.r.size ≤ s.r.size) ∨ (s1.err = none ∧ s1.r.size < s.r.size)) ∧
        s1.weight ≤ s.weight) ∧
    (s.iter = .ret true s1 → s1.weight < s.weight) := by
  obtain ⟨r, mts, tok0, bufLen, start, win, err, empties, done⟩ := s
  obtain ⟨adv, tok, hsl, hadv⟩ := ScanLines_shape win (decide (err ≠ none))
  unfold Scanner.iter
  split
  · simp only [hsl, Scanner.advance, Scanner.end_, Nat.add_sub_cancel_left]
    by_cases hle : adv > win.length
    · simp only [hle, if_true]
      exact ⟨fun h => (by cases h), fun h => (by cases h)⟩
    · simp only [hle, if_false]
      cases htok : tok.isSome
      · simp only [Bool.false_eq_true, if_false]
        constructor
        · intro h
          obtain ⟨h1, h2, h3⟩ := fill_again _ _ h
          refine ⟨h1, h2, ?_⟩
          simp only [Scanner.weight, List.length_drop] at h3 ⊢
          omega
        · intro h
          exact absurd (fill_ret _ _ _ h) (by simp)
      · have hpos := hadv htok
        simp only [if_true]
        split
        · refine ⟨fun h => (by cases h), fun h => ?_⟩
          cases h
          simp only [Scanner.weight, List.length_drop]
          omega
        · split
          · exact ⟨fun h => (by cases h), fun h => (by cases h)⟩
          · refine ⟨fun h => (by cases h), fun h => ?_⟩
            cases h
            simp only [Scanner.weight, List.length_drop]
            omega
  · exact ⟨fun h => fill_again _ _ h, fun h => absurd (fill_ret _ _ _ h) (by simp)⟩

theorem scanLoop_total (fuel : Nat) :
    ∀ s : Scanner, s.r.size + (if s.err = none then 1 else 0) < fuel →
      s.scanLoop fuel ≠ .outOfFuel ∧ ∀ s1, s.scanLoop fuel = .ret true s1 → s1.weight < s.weight := by
  induction fuel with
  | zero => intro s h; omega
  | succ fuel ih =>
    intro s hfuel
    unfold Scanner.scanLoop
    cases hit : s.iter with
    | ret ok s2 =>
      refine ⟨by simp, ?_⟩
      intro s1 h
      simp only [ScanResult.ret.injEq] at h
      obtain ⟨hok, hs⟩ := h
      subst hok hs
      exact (iter_result s s2).2 hit
    | blocked s2 => exact ⟨by simp, fun s1 h => (by cases h)⟩
    | panicked => exact ⟨by simp, fun s1 h => (by cases h)⟩
    | again s2 =>
      obtain ⟨herr, hm, hw⟩ := (iter_result s s2).1 hit
      simp only [herr, if_true] at hfuel
      have hfuel2 : s2.r.size + (if s2.err = none then 1 else 0) < fuel := by
        rcases hm with ⟨e1, e2⟩ | ⟨e1, e2⟩
        · simp only [e1, if_false]; omega
        · simp only [e1, if_true]; omega
      obtain ⟨h1, h2⟩ := ih s2 hfuel2
      exact ⟨h1, fun s1 h => by have := h2 s1 h; omega⟩

/-- The method `Scan` returns, waits for ever on `Read`, or panics: the fuel of its model
never runs out.  When it returns true the Scanner got lighter. -/
theorem Scan_total (s : Scanner) :
    s.Scan ≠ .outOfFuel ∧ ∀ s1, s.Scan = .ret true s1 → s1.weight < s.weight := by
  unfold Scanner.Scan
  split
  · exact ⟨by simp, fun s1 h => (by cases h)⟩
  · exact scanLoop_total (s.r.size + 2) s (by split <;> omega)

theorem handleLoop_total (fuel : Nat) :
    ∀ s : Scanner, s.weight < fuel → (handleLoop fuel s).status ≠ .outOfFuel := by
  induction fuel with
  | zero => intro s h; omega
  | succ fuel ih =>
    intro s hfuel
    obtain ⟨h1, h2⟩ := Scan_total s
    unfold handleLoop
    cases hs : s.Scan with
    | ret ok s1 =>
      cases ok with
      | true =>
        have := h2 s1 hs
        exact ih s1 (by omega)
      | false => simp
    | blocked s1 => simp
    | panicked => simp
    | outOfFuel => exact absurd hs h1

/-- The handler of a connection closes it, waits for ever on `Read`, or panics: the fuel of
its model never runs out. -/
theorem handleConn_total (r : Reader) : (handleConn r).status ≠ .outOfFuel :=
  handleLoop_total (r.size + 1) (NewScanner r) (by simp [Scanner.weight, NewScanner])


/-! ## The program -/

theorem listens_append (a b : List MainEvent) : listens (a ++ b) = listens a ++ listens b := by
  simp [listens, List.filterMap_append]

theorem servers_append (a b : List MainEvent) : servers (a ++ b) = servers a ++ servers b := by
  simp [servers, List.filterMap_append]

theorem listens_conn (id : Nat) (evs : List Event) :
    listens (evs.map (MainEvent.conn id)) = [] := by
  induction evs with
  | nil => rfl
  | cons e evs ih => simp [listens]

theorem servers_conn (id : Nat) (evs : List Event) :
    servers (evs.map (MainEvent.conn id)) = [] := by
  induction evs with
  | nil => rfl
  | cons e evs ih => simp [servers]

theorem listens_leave (st : State) (code : Nat) :
    listens (leave st code).trace = listens st.trace := by
  simp only [leave, listens_append]
  cases st.tsnet <;> simp [listens]

theorem servers_leave (st : State) (code : Nat) :
    servers (leave st code).trace = servers st.trace := by
  simp only [leave, servers_append]
  cases st.tsnet <;> simp [servers]

/-- No step of the system calls `listen` or constructs an overlay client. -/
theorem step_listens_servers (st : State) (a : Action) :
    listens (step st a).trace = listens st.trace ∧
      servers (step st a).trace = servers st.trace := by
  unfold step
  cases hpc : st.pc with
  | exited c => simp
  | loopHead =>
    cases a <;> simp only [stepMain, hpc]
    · split
      · exact ⟨listens_leave _ _, servers_leave _ _⟩
      · simp
    · simp [listens_append, servers_append, listens, servers]
    · split <;> simp [listens_append, servers_append, listens, servers]
    · split <;> simp
    · simp
  | accept =>
    cases a <;> simp only [stepMain, hpc]
    · split
      · rw [listens_leave, servers_leave]
        simp [listens_append, servers_append, listens, servers]
      · split <;> simp [listens_append, servers_append, listens, servers]
    · simp [listens_append, servers_append, listens, servers]
    · split <;> simp [listens_append, servers_append, listens, servers]
    · split <;> simp
    · simp
  | handling id sc =>
    cases a <;> simp only [stepMain, hpc]
    · split
      · simp [listens_append, servers_append, listens_conn, servers_conn]
      · simp [listens_append, servers_append, listens, servers]
      · simp
      · exact ⟨listens_leave _ _, servers_leave _ _⟩
      · simp
    · simp [listens_append, servers_append, listens, servers]
    · split <;> simp [listens_append, servers_append, listens, servers]
    · split <;> simp
    · simp

theorem run_listens_servers (sched : List Action) :
    ∀ st : State, listens (run st sched).trace = listens st.trace ∧
      servers (run st sched).trace = servers st.trace := by
  induction sched with
  | nil => intro st; exact ⟨rfl, rfl⟩
  | cons a sched ih =>
    intro st
    have h1 := ih (step st a)
    have h2 := step_listens_servers st a
    simp only [run, List.foldl_cons] at h1 ⊢
    exact ⟨h1.1.trans h2.1, h1.2.trans h2.2⟩

theorem start_valid (cfg : Config) (ok : Bool) (hh : cfg.hostname ≠ []) (hp : cfg.port ≠ 0) :
    start cfg ok = setup cfg ok := by
  simp [start, validate, hh, hp]

theorem setup_listens_servers (cfg : Config) (ok : Bool) :
    listens (setup cfg ok).trace =
        [(if cfg.hostname = lit "localhost" then Via.net else Via.tsnet, lit "tcp",
          cfg.hostname ++ lit ":" ++ fmtInt cfg.port)] ∧
      servers (setup cfg ok).trace =
        (if cfg.hostname = lit "localhost" then [] else [(cfg.hostname, cfg.stateDir)]) := by
  by_cases hl : cfg.hostname = lit "localhost" <;> cases ok <;>
    simp [setup, fatal, hl, listens, servers]

/-- C7: the choice of the listener looks at the hostname alone.  Whatever the process goes
through afterwards, `listen` is called exactly once, through `net.Listen` if the hostname
is "localhost" and through the `Listen` of an overlay client otherwise, on network "tcp"
and address `hostname ++ ":" ++ decimal(port)`; an overlay client is constructed, with
`Hostname` the hostname and `Dir` the value of `-dir`, exactly when the hostname is not
"localhost"; the value of `-net-listen` changes nothing; and with a non-empty hostname and
a non-zero port this choice is what the program makes. -/
theorem C7_listener_selection (cfg : Config) (ok : Bool) (sched : List Action) :
    listens (run (setup cfg ok) sched).trace =
        [(if cfg.hostname = lit "localhost" then Via.net else Via.tsnet, lit "tcp",
          cfg.hostname ++ lit ":" ++ fmtInt cfg.port)] ∧
      servers (run (setup cfg ok) sched).trace =
        (if cfg.hostname = lit "localhost" then [] else [(cfg.hostname, cfg.stateDir)]) ∧
      (∀ b : Bool, run (start { cfg with useNet := b } ok) sched = run (start cfg ok) sched) ∧
      (cfg.hostname ≠ [] → cfg.port ≠ 0 →
        run (start cfg ok) sched = run (setup cfg ok) sched) := by
  obtain ⟨h1, h2⟩ := run_listens_servers sched (setup cfg ok)
  obtain ⟨h3, h4⟩ := setup_listens_servers cfg ok
  exact ⟨h1.trans h3, h2.trans h4, fun b => rfl, fun hh hp => by rw [start_valid cfg ok hh hp]⟩

/-- C7, witness: hostname "repro-test", directory "repro.state", port 31337, and a client
that is served. -/
theorem C7_listener_selection_witness :
    listens (run (start ⟨lit "repro-test", lit "repro.state", true, 31337⟩ true)
        [.dial ⟨[lit "hi\n"], .eof⟩, .main, .main, .main, .main]).trace =
      [(Via.tsnet, lit "tcp", lit "repro-test:31337")] ∧
    servers (run (start ⟨lit "repro-test", lit "repro.state", true, 31337⟩ true)
        [.dial ⟨[lit "hi\n"], .eof⟩, .main, .main, .main, .main]).trace =
      [(lit "repro-test", lit "repro.state")] :=
  ⟨(C7_listener_selection ⟨lit "repro-test", lit "repro.state", true, 31337⟩ true
      [.dial ⟨[lit "hi\n"], .eof⟩, .main, .main, .main, .main]).1,
   (C7_listener_selection ⟨lit "repro-test", lit "repro.state", true, 31337⟩ true
      [.dial ⟨[lit "hi\n"], .eof⟩, .main, .main, .main, .main]).2.1⟩

/-- C8: the validation of the flags ends the process with a fatal message exactly when the
hostname is empty or the port is zero; the process has then done nothing else: no overlay
client was constructed and `listen` was not called.  With a non-empty hostname and a
non-zero port validation passes and the program goes on to choose its listener and to call
`listen`. -/
theorem C8_validation (cfg : Config) (ok : Bool) :
    ((cfg.hostname = [] ∨ cfg.port = 0) ↔
        ((start cfg ok).trace = [.log .mustHostname, .exit 1] ∨
         (start cfg ok).trace = [.log .mustPort, .exit 1])) ∧
      ((cfg.hostname = [] ∨ cfg.port = 0) →
        (start cfg ok).pc = .exited 1 ∧ servers (start cfg ok).trace = [] ∧
          listens (start cfg ok).trace = []) ∧
      (cfg.hostname ≠ [] → cfg.port ≠ 0 →
        validate cfg = none ∧ start cfg ok = setup cfg ok ∧
        listens (start cfg ok).trace =
          [(if cfg.hostname = lit "localhost" then Via.net else Via.tsnet, lit "tcp",
            cfg.hostname ++ lit ":" ++ fmtInt cfg.port)]) := by
  by_cases hh : cfg.hostname = []
  · simp [start, validate, fatal, hh, servers, listens]
  · by_cases hp : cfg.port = 0
    · simp [start, validate, fatal, hh, hp, servers, listens]
    · have hs := start_valid cfg ok hh hp
      have hl := (setup_listens_servers cfg ok).1
      refine ⟨?_, ?_, ?_⟩
      · rw [hs]
        simp only [hh, hp, or_self, false_iff, not_or]
        by_cases hloc : cfg.hostname = lit "localhost" <;> cases ok <;>
          simp [setup, fatal, hloc]
      · intro h
        rcases h with h | h
        · exact absurd h hh
        · exact absurd h hp
      · intro _ _
        exact ⟨by simp [validate, hh, hp], hs, by rw [hs]; exact hl⟩

/-- C5, the code at the failing input: with hostname "repro-test" the overlay client is
constructed, `srv.Listen` fails, `log.Fatalf` ends the process, and the deferred call that
closes the client has not run; whereas on the return from `main`, here after an interrupt,
the deferred calls run and the client is closed. -/
theorem C5_close_skipped_when_listen_fails :
    (start ⟨lit "repro-test", lit "repro.state", false, 31337⟩ false).trace =
        [.log .startingTsnet, .newServer (lit "repro-test") (lit "repro.state"),
         .listen .tsnet (lit "tcp") (lit "repro-test:31337"), .log .listenFailed, .exit 1] ∧
      MainEvent.serverClose ∉
        (start ⟨lit "repro-test", lit "repro.state", false, 31337⟩ false).trace ∧
      (start ⟨lit "repro-test", lit "repro.state", false, 31337⟩ false).pc = .exited 1 ∧
      (run (start ⟨lit "repro-test", lit "repro.state", false, 31337⟩ true)
          [.interrupt, .main]).trace =
        [.log .startingTsnet, .newServer (lit "repro-test") (lit "repro.state"),
         .listen .tsnet (lit "tcp") (lit "repro-test:31337"), .log .listening, .interrupt,
         .cancel, .serverClose, .log .serverClose, .exit 0] := by
  decide

theorem atAccept_append (P : List MainEvent → Prop) (tr new : List MainEvent)
    (h : AtAccept P tr) (hnew : ∀ e ∈ new, isAccepted e = false) : AtAccept P (tr ++ new) := by
  intro p q id heq
  rcases List.append_eq_append_iff.mp heq with ⟨a, hp, hn⟩ | ⟨c, ht, hc⟩
  · have := hnew (.accepted id) (by rw [hn]; simp)
    simp [isAccepted] at this
  · cases c with
    | nil =>
      have := hnew (.accepted id) (by rw [List.nil_append] at hc; rw [← hc]; simp)
      simp [isAccepted] at this
    | cons x c =>
      simp only [List.cons_append, List.cons.injEq] at hc
      exact h p c id (by rw [ht, hc.1])

theorem atAccept_accept (P : List MainEvent → Prop) (tr more : List MainEvent) (n : Nat)
    (h : AtAccept P tr) (hP : P tr) (hmore : ∀ e ∈ more, isAccepted e = false) :
    AtAccept P (tr ++ .accepted n :: more) := by
  intro p q id heq
  rcases List.append_eq_append_iff.mp heq with ⟨a, hp, hn⟩ | ⟨c, ht, hc⟩
  · cases a with
    | nil =>
      rw [List.append_nil] at hp
      rw [hp]; exact hP
    | cons x a =>
      simp only [List.cons_append, List.cons.injEq] at hn
      have := hmore (.accepted id) (by rw [hn.2]; simp)
      simp [isAccepted] at this
  · cases c with
    | nil =>
      rw [List.append_nil] at ht
      rw [← ht]; exact hP
    | cons x c =>
      simp only [List.cons_append, List.cons.injEq] at hc
      exact h p c id (by rw [ht, hc.1])

/-- What a step does to the trace: it appends events none of which is an accept, or the
main goroutine, inside `Accept` on an open listener, takes the first connection of the
queue. -/
theorem step_trace (st : State) (a : Action) :
    (∃ new, (step st a).trace = st.trace ++ new ∧ (∀ e ∈ new, isAccepted e = false)) ∨
    (st.pc = .accept ∧ st.lstClosed = false ∧ st.lstFailed = false ∧
      ∃ more, (step st a).trace = st.trace ++ .accepted st.nextId :: more ∧
        (∀ e ∈ more, isAccepted e = false)) := by
  obtain ⟨pc, tsnet, cancelled, lstClosed, lstFailed, queue, nextId, trace⟩ := st
  have hleave : ∀ (tr : List MainEvent) (code : Nat),
      ∀ e ∈ [MainEvent.cancel] ++
        (if tsnet = true then [MainEvent.serverClose, .log .serverClose] else []) ++
        [MainEvent.exit code], isAccepted e = false := by
    intro tr code
    cases tsnet <;> simp [isAccepted]
  cases pc with
  | exited c => exact Or.inl ⟨[], by simp [step], by simp⟩
  | loopHead =>
    cases a <;> simp only [step, stepMain]
    · split
      · exact Or.inl ⟨_, by simp only [leave, List.append_assoc], hleave trace 0⟩
      · exact Or.inl ⟨[], by simp, by simp⟩
    · exact Or.inl ⟨[.interrupt], rfl, by simp [isAccepted]⟩
    · split
      · exact Or.inl ⟨[.listenerClose], rfl, by simp [isAccepted]⟩
      · exact Or.inl ⟨[], by simp, by simp⟩
    · split <;> exact Or.inl ⟨[], by simp, by simp⟩
    · exact Or.inl ⟨[], by simp, by simp⟩
  | accept =>
    cases a <;> simp only [step, stepMain]
    · split
      · refine Or.inl ⟨[.log .acceptFailed] ++ ([MainEvent.cancel] ++
          (if tsnet = true then [MainEvent.serverClose, .log .serverClose] else []) ++
          [MainEvent.exit 0]), by simp only [leave, List.append_assoc], ?_⟩
        intro e he
        rcases List.mem_append.mp he with h | h
        · simp at h; subst h; rfl
        · exact hleave trace 0 e h
      · rename_i hopen
        split
        · exact Or.inl ⟨[], by simp, by simp⟩
        · right
          simp only [not_or, Bool.not_eq_true] at hopen
          exact ⟨trivial, hopen.1, hopen.2, [.log .connected], rfl, by simp [isAccepted]⟩
    · exact Or.inl ⟨[.interrupt], rfl, by simp [isAccepted]⟩
    · split
      · exact Or.inl ⟨[.listenerClose], rfl, by simp [isAccepted]⟩
      · exact Or.inl ⟨[], by simp, by simp⟩
    · split <;> exact Or.inl ⟨[], by simp, by simp⟩
    · exact Or.inl ⟨[], by simp, by simp⟩
  | handling id sc =>
    cases a <;> simp only [step, stepMain]
    · split
      · exact Or.inl ⟨_, rfl, by simp [isAccepted, lineEvents]⟩
      · exact Or.inl ⟨[.conn id .close], rfl, by simp [isAccepted]⟩
      · exact Or.inl ⟨[], by simp, by simp⟩
      · exact Or.inl ⟨_, by simp only [leave, List.append_assoc], hleave trace 2⟩
      · exact Or.inl ⟨[], by simp, by simp⟩
    · exact Or.inl ⟨[.interrupt], rfl, by simp [isAccepted]⟩
    · split
      · exact Or.inl ⟨[.listenerClose], rfl, by simp [isAccepted]⟩
      · exact Or.inl ⟨[], by simp, by simp⟩
    · split <;> exact Or.inl ⟨[], by simp, by simp⟩
    · exact Or.inl ⟨[], by simp, by simp⟩

/-- Preservation of a property of the form `AtAccept P` by a step: it is enough that `P`
holds of the trace whenever the main goroutine is inside `Accept` on an open listener. -/
theorem step_atAccept (P : List MainEvent → Prop) (st : State) (a : Action)
    (h : AtAccept P st.trace)
    (hP : st.pc = .accept → st.lstClosed = false → st.lstFailed = false → P st.trace) :
    AtAccept P (step st a).trace := by
  rcases step_trace st a with ⟨new, h1, h2⟩ | ⟨hpc, hc, hf, more, h1, h2⟩
  · rw [h1]; exact atAccept_append P _ _ h h2
  · rw [h1]; exact atAccept_accept P _ _ _ h (hP hpc hc hf) h2

theorem settled_append (tr new : List MainEvent) (pc : PC)
    (hnew : ∀ e ∈ new, isAccepted e = false)
    (h : ∀ j, MainEvent.accepted j ∈ tr →
      MainEvent.conn j .close ∈ tr ∨ (∃ sc, pc = .handling j sc) ∨ (∃ c, pc = .exited c)) :
    ∀ j, MainEvent.accepted j ∈ tr ++ new →
      MainEvent.conn j .close ∈ tr ++ new ∨ (∃ sc, pc = .handling j sc) ∨
        (∃ c, pc = .exited c) := by
  intro j hj
  rcases List.mem_append.mp hj with hj | hj
  · exact Or.imp_left (List.mem_append_left _) (h j hj)
  · have := hnew _ hj
    simp [isAccepted] at this

theorem step_settled (st : State) (a : Action) (h : st.Settled) : (step st a).Settled := by
  obtain ⟨pc, tsnet, cancelled, lstClosed, lstFailed, queue, nextId, trace⟩ := st
  simp only [State.Settled] at h ⊢
  cases pc with
  | exited c => simp only [step]; exact h
  | loopHead =>
    cases a <;> simp only [step, stepMain]
    · split
      · intro j _; right; right; exact ⟨0, rfl⟩
      · intro j hj
        rcases h j hj with h1 | ⟨sc, h2⟩ | ⟨c, h3⟩
        · exact Or.inl h1
        · cases h2
        · cases h3
    · exact settled_append trace _ _ (by simp [isAccepted]) h
    · split
      · exact settled_append trace _ _ (by simp [isAccepted]) h
      · exact h
    · split <;> exact h
    · exact h
  | accept =>
    cases a <;> simp only [step, stepMain]
    · split
      · intro j _; right; right; exact ⟨0, rfl⟩
      · split
        · exact h
        · intro j hj
          simp only [List.mem_append, List.mem_cons, MainEvent.accepted.injEq, reduceCtorEq,
            List.mem_singleton, or_false, List.not_mem_nil] at hj
          rcases hj with hj | hj
          · rcases h j hj with h1 | ⟨sc, h2⟩ | ⟨c, h3⟩
            · exact Or.inl (List.mem_append_left _ h1)
            · cases h2
            · cases h3
          · right; left; exact ⟨_, by rw [hj]⟩
    · exact settled_append trace _ _ (by simp [isAccepted]) h
    · split
      · exact settled_append trace _ _ (by simp [isAccepted]) h
      · exact h
    · split <;> exact h
    · exact h
  | handling id sc =>
    cases a <;> simp only [step, stepMain]
    · split
      · intro j hj
        have hj' : MainEvent.accepted j ∈ trace := by
          rcases List.mem_append.mp hj with hj | hj
          · exact hj
          · simp [lineEvents] at hj
        rcases h j hj' with h1 | ⟨sc', h2⟩ | ⟨c, h3⟩
        · exact Or.inl (List.mem_append_left _ h1)
        · simp only [PC.handling.injEq] at h2
          right; left; exact ⟨_, by rw [h2.1]⟩
        · cases h3
      · intro j hj
        simp only [List.mem_append, List.mem_singleton, reduceCtorEq, or_false] at hj
        rcases h j hj with h1 | ⟨sc', h2⟩ | ⟨c, h3⟩
        · exact Or.inl (List.mem_append_left _ h1)
        · simp only [PC.handling.injEq] at h2
          left
          rw [h2.1]
          simp
        · cases h3
      · exact h
      · intro j _; right; right; exact ⟨2, rfl⟩
      · exact h
    · exact settled_append trace _ _ (by simp [isAccepted]) h
    · split
      · exact settled_append trace _ _ (by simp [isAccepted]) h
      · exact h
    · split <;> exact h
    · exact h

theorem step_closeSeen (st : State) (a : Action) (h : st.CloseSeen) :
    (step st a).CloseSeen := by
  obtain ⟨pc, tsnet, cancelled, lstClosed, lstFailed, queue, nextId, trace⟩ := st
  simp only [State.CloseSeen] at h ⊢
  have hmono : ∀ (new : List MainEvent) (pc' : PC), MainEvent.listenerClose ∉ new →
      (∀ c, pc = .exited c → pc' = .exited c) →
      MainEvent.listenerClose ∈ trace ++ new → lstClosed = true ∨ ∃ c, pc' = .exited c := by
    intro new pc' hnew hpc hin
    rcases List.mem_append.mp hin with hin | hin
    · rcases h hin with h1 | ⟨c, h2⟩
      · exact Or.inl h1
      · exact Or.inr ⟨c, hpc c h2⟩
    · exact absurd hin hnew
  cases pc with
  | exited c => simp only [step]; exact h
  | loopHead =>
    cases a <;> simp only [step, stepMain]
    · split
      · intro _; right; exact ⟨0, rfl⟩
      · intro hin
        rcases h hin with h1 | ⟨c, h2⟩
        · exact Or.inl h1
        · cases h2
    · exact hmono _ _ (by simp) (fun c hc => hc)
    · split
      · intro _; exact Or.inl rfl
      · exact h
    · split <;> exact h
    · exact h
  | accept =>
    cases a <;> simp only [step, stepMain]
    · split
      · intro _; right; exact ⟨0, rfl⟩
      · split
        · exact h
        · exact hmono _ _ (by simp) (fun c hc => by cases hc)
    · exact hmono _ _ (by simp) (fun c hc => hc)
    · split
      · intro _; exact Or.inl rfl
      · exact h
    · split <;> exact h
    · exact h
  | handling id sc =>
    cases a <;> simp only [step, stepMain]
    · split
      · exact hmono _ _ (by simp [lineEvents]) (fun c hc => by cases hc)
      · exact hmono _ _ (by simp) (fun c hc => by cases hc)
      · exact h
      · intro _; right; exact ⟨2, rfl⟩
      · exact h
    · exact hmono _ _ (by simp) (fun c hc => hc)
    · split
      · intro _; exact Or.inl rfl
      · exact h
    · split <;> exact h
    · exact h

/-- The two invariants and the two properties of accepts hold in every reachable state. -/
theorem run_invariants (sched : List Action) :
    ∀ st : State, st.Settled → st.CloseSeen →
      AtAccept (fun p => ∀ j, MainEvent.accepted j ∈ p → MainEvent.conn j .close ∈ p) st.trace →
      AtAccept (fun p => MainEvent.listenerClose ∉ p) st.trace →
      (run st sched).Settled ∧ (run st sched).CloseSeen ∧
        AtAccept (fun p => ∀ j, MainEvent.accepted j ∈ p → MainEvent.conn j .close ∈ p)
          (run st sched).trace ∧
        AtAccept (fun p => MainEvent.listenerClose ∉ p) (run st sched).trace := by
  induction sched with
  | nil => intro st h1 h2 h3 h4; exact ⟨h1, h2, h3, h4⟩
  | cons a sched ih =>
    intro st h1 h2 h3 h4
    simp only [run, List.foldl_cons]
    refine ih (step st a) (step_settled st a h1) (step_closeSeen st a h2) ?_ ?_
    · refine step_atAccept _ st a h3 ?_
      intro hpc _ _ j hj
      rcases h1 j hj with h | ⟨sc, h⟩ | ⟨c, h⟩
      · exact h
      · rw [hpc] at h; cases h
      · rw [hpc] at h; cases h
    · refine step_atAccept _ st a h4 ?_
      intro hpc hc _ hin
      rcases h2 hin with h | ⟨c, h⟩
      · rw [hc] at h; cases h
      · rw [hpc] at h; cases h

theorem start_invariants (cfg : Config) (ok : Bool) :
    (start cfg ok).Settled ∧ (start cfg ok).CloseSeen ∧
      (∀ P, AtAccept P (start cfg ok).trace) := by
  have hno : ∀ e ∈ (start cfg ok).trace, isAccepted e = false ∧ e ≠ .listenerClose := by
    by_cases hh : cfg.hostname = []
    · simp [start, validate, fatal, hh, isAccepted]
    · by_cases hp : cfg.port = 0
      · simp [start, validate, fatal, hh, hp, isAccepted]
      · rw [start_valid cfg ok hh hp]
        by_cases hl : cfg.hostname = lit "localhost" <;> cases ok <;>
          simp [setup, fatal, hl, isAccepted]
  refine ⟨?_, ?_, ?_⟩
  · intro j hj
    have := (hno _ hj).1
    simp [isAccepted] at this
  · intro hin
    exact absurd rfl (hno _ hin).2
  · intro P p q id heq
    have := (hno (.accepted id) (by rw [heq]; simp)).1
    simp [isAccepted] at this

theorem acceptCount_append (a b : List MainEvent) :
    acceptCount (a ++ b) = acceptCount a + acceptCount b := by
  simp [acceptCount, List.countP_append]

theorem acceptCount_leave (st : State) (code : Nat) :
    acceptCount (leave st code).trace = acceptCount st.trace := by
  obtain ⟨pc, tsnet, cancelled, lstClosed, lstFailed, queue, nextId, trace⟩ := st
  cases tsnet <;> simp [leave, acceptCount, List.countP_append, List.countP_cons, isAccepted]

theorem scan_silentPeer : (NewScanner silentPeer).Scan = .blocked
    { NewScanner silentPeer with bufLen := startBufSize } := by
  decide

theorem step_behind (peer : Reader) (sc' : Scanner)
    (hb : (NewScanner peer).Scan = .blocked sc') (st : State) (a : Action)
    (h : st.Behind peer) : (step st a).Behind peer := by
  obtain ⟨pc, tsnet, cancelled, lstClosed, lstFailed, queue, nextId, trace⟩ := st
  simp only [State.Behind] at h ⊢
  cases pc with
  | exited c => simp only [step]; exact h
  | loopHead =>
    rcases h with ⟨h0, _, hq⟩ | ⟨_, ⟨id, h⟩ | ⟨c, h⟩⟩
    rotate_left
    · cases h
    · cases h
    cases a <;> simp only [step, stepMain]
    · split
      · right
        exact ⟨by rw [acceptCount_leave]; simp only; omega, Or.inr ⟨0, rfl⟩⟩
      · left; exact ⟨h0, by simp, hq⟩
    · left
      exact ⟨by simpa [acceptCount_append, acceptCount, isAccepted] using h0, by simp, hq⟩
    · split
      · rename_i hc
        left
        exact ⟨by simpa [acceptCount_append, acceptCount, isAccepted] using h0, by simp,
          by simp⟩
      · left; exact ⟨h0, by simp, hq⟩
    · split
      · left; exact ⟨h0, by simp, hq⟩
      · rename_i hopen
        left
        refine ⟨h0, by simp, ?_⟩
        rcases hq with hq | ⟨_, hq⟩
        · left
          cases queue with
          | nil => simp at hq
          | cons x xs => simpa using hq
        · exact absurd (by simpa using hq) hopen
    · left; exact ⟨h0, by simp, by simp⟩
  | accept =>
    rcases h with ⟨h0, _, hq⟩ | ⟨_, ⟨id, h⟩ | ⟨c, h⟩⟩
    rotate_left
    · cases h
    · cases h
    cases a <;> simp only [step, stepMain]
    · split
      · right
        refine ⟨?_, Or.inr ⟨0, rfl⟩⟩
        rw [acceptCount_leave]
        simp only [acceptCount_append, h0]
        simp [acceptCount, isAccepted]
      · rename_i hopen
        split
        · left; exact ⟨h0, by simp, hq⟩
        · rename_i q0 peer rest
          right
          refine ⟨?_, Or.inl ⟨nextId, ?_⟩⟩
          · simp only [acceptCount_append, h0]
            simp [acceptCount, isAccepted]
          · rcases hq with hq | ⟨hq, _⟩
            · simp only [List.head?_cons, Option.some.injEq] at hq
              rw [hq]
            · cases hq
    · left
      exact ⟨by simpa [acceptCount_append, acceptCount, isAccepted] using h0, by simp, hq⟩
    · split
      · left
        exact ⟨by simpa [acceptCount_append, acceptCount, isAccepted] using h0, by simp,
          by simp⟩
      · left; exact ⟨h0, by simp, hq⟩
    · split
      · left; exact ⟨h0, by simp, hq⟩
      · rename_i hopen
        left
        refine ⟨h0, by simp, ?_⟩
        rcases hq with hq | ⟨_, hq⟩
        · left
          cases queue with
          | nil => simp at hq
          | cons x xs => simpa using hq
        · exact absurd (by simpa using hq) hopen
    · left; exact ⟨h0, by simp, by simp⟩
  | handling id sc =>
    rcases h with ⟨_, h | h, _⟩ | ⟨h1, ⟨id', h⟩ | ⟨c, h⟩⟩
    · cases h
    · cases h
    rotate_left
    · cases h
    simp only [PC.handling.injEq] at h
    obtain ⟨hid, hsc⟩ := h
    subst hid hsc
    cases a <;> simp only [step, stepMain, hb]
    · right; exact ⟨h1, Or.inl ⟨_, rfl⟩⟩
    · right
      exact ⟨by simpa [acceptCount_append, acceptCount, isAccepted] using h1, Or.inl ⟨_, rfl⟩⟩
    · split
      · right
        exact ⟨by simpa [acceptCount_append, acceptCount, isAccepted] using h1,
          Or.inl ⟨_, rfl⟩⟩
      · right; exact ⟨h1, Or.inl ⟨_, rfl⟩⟩
    · split <;> (right; exact ⟨h1, Or.inl ⟨_, rfl⟩⟩)
    · right; exact ⟨h1, Or.inl ⟨_, rfl⟩⟩

theorem run_behind (peer : Reader) (sc' : Scanner)
    (hb : (NewScanner peer).Scan = .blocked sc') (sched : List Action) :
    ∀ st : State, st.Behind peer → (run st sched).Behind peer := by
  induction sched with
  | nil => intro st h; exact h
  | cons a sched ih =>
    intro st h
    simp only [run, List.foldl_cons]
    exact ih (step st a) (step_behind peer sc' hb st a h)

theorem behind_count (peer : Reader) (st : State) (h : st.Behind peer) :
    acceptCount st.trace ≤ 1 := by
  rcases h with ⟨h, _⟩ | ⟨h, _⟩ <;> omega

theorem Scan_line (L R : List Byte) (hL : nl ∉ L) (hlen : L.length < MaxScanTokenSize)
    (sc : Scanner) (hwf : sc.WF) (herr : sc.err = none) (hun : sc.unread = L ++ nl :: R) :
    ∃ sc1, sc.Scan = .ret true sc1 ∧ sc1.WF ∧ sc1.err = none ∧ sc1.token = some (dropCR L) ∧
      sc1.unread = R ∧ sc1.r.ending = sc.r.ending := by
  obtain ⟨s', hs', hwf', herr', htok', hun', hend', _⟩ :=
    scanLoop_line L R hL hlen (sc.r.size + 2) sc hwf herr hun (by omega)
  exact ⟨s', by rw [Scan_eq sc hwf.notDone, hs'], hwf', herr', htok', hun', hend'⟩

theorem Scan_drained (sc : Scanner) (hwf : sc.WF) (herr : sc.err = none)
    (hun : sc.unread = []) :
    (sc.r.ending ≠ .silent → ∃ sc1, sc.Scan = .ret false sc1) ∧
      (sc.r.ending = .silent → ∃ sc1, sc.Scan = .blocked sc1) := by
  have hlen0 : ([] : List Byte).length < MaxScanTokenSize := by decide
  constructor
  · intro hen
    have hcase : ∃ e, sc.r.ending = .eof ∧ e = ScanErr.eof ∨
        sc.r.ending = .fail ∧ e = ScanErr.readFailed := by
      rcases h : sc.r.ending with _ | _ | _
      · exact ⟨.eof, Or.inl ⟨rfl, rfl⟩⟩
      · exact ⟨.readFailed, Or.inr ⟨rfl, rfl⟩⟩
      · exact absurd h hen
    obtain ⟨e, he⟩ := hcase
    obtain ⟨s', _, _, hc⟩ := scanLoop_tail [] (List.not_mem_nil _) hlen0 sc.r.ending e he
      (sc.r.size + 2) sc hwf herr hun rfl (by omega)
    rcases hc with ⟨_, hs⟩ | ⟨hne, _⟩
    · exact ⟨s', by rw [Scan_eq sc hwf.notDone, hs]⟩
    · exact absurd rfl hne
  · intro hen
    obtain ⟨s', hs⟩ := scanLoop_silent [] (List.not_mem_nil _) hlen0 (sc.r.size + 2) sc hwf herr
      hun hen (by omega)
    exact ⟨s', by rw [Scan_eq sc hwf.notDone, hs]⟩

theorem connTrace_append (id : Nat) (a b : List MainEvent) :
    connTrace id (a ++ b) = connTrace id a ++ connTrace id b := by
  simp [connTrace, List.filterMap_append]

theorem connTrace_conn (id : Nat) (evs : List Event) :
    connTrace id (evs.map (MainEvent.conn id)) = evs := by
  induction evs with
  | nil => rfl
  | cons e evs ih =>
    simp only [List.map_cons, connTrace, List.filterMap_cons, if_true] at ih ⊢
    rw [ih]

theorem connTrace_other (id j : Nat) (hj : j ≠ id) (evs : List Event) :
    connTrace id (evs.map (MainEvent.conn j)) = [] := by
  induction evs with
  | nil => rfl
  | cons e evs ih =>
    simp only [List.map_cons, connTrace, List.filterMap_cons, hj, if_false] at ih ⊢
    exact ih

theorem connTrace_leave (id : Nat) (st : State) (code : Nat) :
    connTrace id (leave st code).trace = connTrace id st.trace := by
  obtain ⟨pc, tsnet, cancelled, lstClosed, lstFailed, queue, nextId, trace⟩ := st
  cases tsnet <;> simp [leave, connTrace, List.filterMap_append]

/-- Once the handler of connection `id` is over, no step adds an event of that
connection: the numbers given to later connections are larger. -/
theorem step_fresh (id : Nat) (st : State) (a : Action) (hid : id < st.nextId)
    (hpc : ∀ sc, st.pc ≠ .handling id sc) :
    id < (step st a).nextId ∧ (∀ sc, (step st a).pc ≠ .handling id sc) ∧
      connTrace id (step st a).trace = connTrace id st.trace := by
  obtain ⟨pc, tsnet, cancelled, lstClosed, lstFailed, queue, nextId, trace⟩ := st
  simp only at hid hpc
  cases pc with
  | exited c => simp only [step]; exact ⟨hid, hpc, by simp⟩
  | loopHead =>
    cases a <;> simp only [step, stepMain]
    · split
      · exact ⟨hid, by simp [leave], connTrace_leave id _ 0⟩
      · exact ⟨hid, by simp, by simp⟩
    · exact ⟨hid, by simp, by simp [connTrace_append, connTrace]⟩
    · split
      · exact ⟨hid, by simp, by simp [connTrace_append, connTrace]⟩
      · exact ⟨hid, by simp, by simp⟩
    · split <;> exact ⟨hid, by simp, by simp⟩
    · exact ⟨hid, by simp, by simp⟩
  | accept =>
    cases a <;> simp only [step, stepMain]
    · split
      · refine ⟨hid, by simp [leave], ?_⟩
        rw [connTrace_leave]
        simp [connTrace_append, connTrace]
      · split
        · exact ⟨hid, by simp, by simp⟩
        · refine ⟨by simp only; omega, ?_, by simp [connTrace_append, connTrace]⟩
          intro sc h
          simp only [PC.handling.injEq] at h
          omega
    · exact ⟨hid, by simp, by simp [connTrace_append, connTrace]⟩
    · split
      · exact ⟨hid, by simp, by simp [connTrace_append, connTrace]⟩
      · exact ⟨hid, by simp, by simp⟩
    · split <;> exact ⟨hid, by simp, by simp⟩
    · exact ⟨hid, by simp, by simp⟩
  | handling j sc =>
    have hj : j ≠ id := fun h => hpc sc (by rw [h])
    cases a <;> simp only [step, stepMain]
    · split
      · refine ⟨hid, ?_, by rw [connTrace_append, connTrace_other id j hj]; simp⟩
        intro sc' h
        simp only [PC.handling.injEq] at h
        exact hj h.1
      · exact ⟨hid, by simp, by simp [connTrace_append, connTrace, hj]⟩
      · exact ⟨hid, hpc, by simp⟩
      · exact ⟨hid, by simp [leave], connTrace_leave id _ 2⟩
      · exact ⟨hid, hpc, by simp⟩
    · exact ⟨hid, hpc, by simp [connTrace_append, connTrace]⟩
    · split
      · exact ⟨hid, hpc, by simp [connTrace_append, connTrace]⟩
      · exact ⟨hid, hpc, by simp⟩
    · split <;> exact ⟨hid, hpc, by simp⟩
    · exact ⟨hid, hpc, by simp⟩

theorem run_fresh (id : Nat) (sched : List Action) :
    ∀ st : State, id < st.nextId → (∀ sc, st.pc ≠ .handling id sc) →
      connTrace id (run st sched).trace = connTrace id st.trace := by
  induction sched with
  | nil => intro st _ _; rfl
  | cons a sched ih =>
    intro st hid hpc
    obtain ⟨h1, h2, h3⟩ := step_fresh id st a hid hpc
    simp only [run, List.foldl_cons]
    exact (ih (step st a) h1 h2).trans h3

/-- While the main goroutine handles a connection, the other actions leave its program
point and the events of the connection as they are. -/
theorem step_beside (id : Nat) (sc : Scanner) (st : State) (a : Action) (ha : a ≠ .main)
    (hpc : st.pc = .handling id sc) :
    (step st a).pc = .handling id sc ∧ (step st a).nextId = st.nextId ∧
      connTrace id (step st a).trace = connTrace id st.trace := by
  obtain ⟨pc, tsnet, cancelled, lstClosed, lstFailed, queue, nextId, trace⟩ := st
  simp only at hpc
  subst hpc
  cases a <;> simp only [step]
  · exact absurd rfl ha
  · exact ⟨by simp, by simp, by simp [connTrace_append, connTrace]⟩
  · split
    · exact ⟨by simp, by simp, by simp [connTrace_append, connTrace]⟩
    · exact ⟨by simp, by simp, by simp⟩
  · split <;> exact ⟨by simp, by simp, by simp⟩
  · exact ⟨by simp, by simp, by simp⟩

theorem acceptCount_start (cfg : Config) (ok : Bool) : acceptCount (start cfg ok).trace = 0 := by
  by_cases hh : cfg.hostname = []
  · simp [start, validate, fatal, hh, acceptCount, isAccepted]
  · by_cases hp : cfg.port = 0
    · simp [start, validate, fatal, hh, hp, acceptCount, isAccepted]
    · rw [start_valid cfg ok hh hp]
      by_cases hl : cfg.hostname = lit "localhost" <;> cases ok <;>
        simp [setup, fatal, hl, acceptCount, isAccepted, List.countP_cons]

/-- After the first client has connected, the system is behind it. -/
theorem behind_first (cfg : Config) (ok : Bool) (peer : Reader) :
    (step (start cfg ok) (.dial peer)).Behind peer := by
  have h0 := acceptCount_start cfg ok
  by_cases hh : cfg.hostname = []
  · right
    simp [start, validate, fatal, hh, step, acceptCount, isAccepted]
  · by_cases hp : cfg.port = 0
    · right
      simp [start, validate, fatal, hh, hp, step, acceptCount, isAccepted]
    · rw [start_valid cfg ok hh hp] at h0 ⊢
      cases ok
      · right
        refine ⟨?_, Or.inr ⟨1, ?_⟩⟩
        · have : step (setup cfg false) (.dial peer) = setup cfg false := by
            simp [setup, fatal, step]
          rw [this, h0]; omega
        · simp [setup, fatal, step]
      · left
        have hs : step (setup cfg true) (.dial peer) =
            { setup cfg true with queue := [peer] } := by
          simp [setup, step]
        rw [hs]
        exact ⟨h0, by simp [setup], by simp⟩

/-- A peer that has sent fewer than 65536 bytes, none of them a newline, and stays silent:
the first call of `Scan` on its connection never returns. -/
theorem Scan_waits (peer : Reader) (hp : peer.Proper) (hen : peer.ending = .silent)
    (hno : nl ∉ peer.stream) (hlen : peer.stream.length < MaxScanTokenSize) :
    ∃ sc', (NewScanner peer).Scan = .blocked sc' := by
  obtain ⟨s', hs⟩ := scanLoop_silent peer.stream hno hlen ((NewScanner peer).r.size + 2)
    (NewScanner peer) (WF_new peer hp) rfl (by simp [Scanner.unread, NewScanner, Reader.stream])
    hen (by omega)
  exact ⟨s', by rw [Scan_eq _ (WF_new peer hp).notDone, hs]⟩

theorem run_append (st : State) (a b : List Action) : run st (a ++ b) = run (run st a) b := by
  simp [run, List.foldl_append]

/-- While the handler of a connection waits in a `Read` that never returns, the main
goroutine stays there and no connection is accepted. -/
theorem run_stalled (id : Nat) (sc sc' : Scanner) (hb : sc.Scan = .blocked sc')
    (sched : List Action) :
    ∀ st : State, st.pc = .handling id sc →
      acceptCount (run st sched).trace = acceptCount st.trace ∧
        (run st sched).pc = .handling id sc := by
  induction sched with
  | nil => intro st h; exact ⟨rfl, h⟩
  | cons a sched ih =>
    intro st hpc
    have hstep : (step st a).pc = .handling id sc ∧
        acceptCount (step st a).trace = acceptCount st.trace := by
      by_cases ha : a = .main
      · subst ha
        have : step st .main = st := by simp only [step, stepMain, hpc, hb]
        rw [this]; exact ⟨hpc, rfl⟩
      · refine ⟨(step_beside id sc st a ha hpc).1, ?_⟩
        rcases step_trace st a with ⟨new, h1, h2⟩ | ⟨h1, _⟩
        · rw [h1, acceptCount_append]
          have : acceptCount new = 0 := by
            simp only [acceptCount, List.countP_eq_zero]
            intro e he
            simp [h2 e he]
          omega
        · rw [hpc] at h1; cases h1
    obtain ⟨h1, h2⟩ := ih (step st a) hstep.1
    simp only [run, List.foldl_cons] at h1 h2 ⊢
    exact ⟨h1.trans hstep.2, h2⟩

/-- C6 (amended): connections are handled one at a time by the accept loop itself.  In
every run of the program, when `Accept` returns a connection every connection accepted
before it has been closed; when the first client has sent fewer than 65536 bytes, none of
them a newline, and neither sends more nor closes, at most one connection is ever
accepted; and as long as the handler of a connection waits in a `Read` that never returns,
the main goroutine stays in it and no connection is accepted. -/
theorem C6_one_connection_at_a_time (cfg : Config) (ok : Bool) (sched : List Action) :
    (∀ (p q : List MainEvent) (id : Nat),
        (run (start cfg ok) sched).trace = p ++ .accepted id :: q →
        ∀ j, MainEvent.accepted j ∈ p → MainEvent.conn j .close ∈ p) ∧
    (∀ peer : Reader, peer.Proper → peer.ending = .silent → nl ∉ peer.stream →
        peer.stream.length < MaxScanTokenSize →
        acceptCount (run (start cfg ok) (.dial peer :: sched)).trace ≤ 1) ∧
    (∀ (id : Nat) (sc sc' : Scanner) (more : List Action),
        (run (start cfg ok) sched).pc = .handling id sc → sc.Scan = .blocked sc' →
        acceptCount (run (start cfg ok) (sched ++ more)).trace =
            acceptCount (run (start cfg ok) sched).trace ∧
          (run (start cfg ok) (sched ++ more)).pc = .handling id sc) := by
  refine ⟨?_, ?_, ?_⟩
  · intro p q id h
    obtain ⟨h1, h2, h3⟩ := start_invariants cfg ok
    exact (run_invariants sched (start cfg ok) h1 h2 (h3 _) (h3 _)).2.2.1 p q id h
  · intro peer hp hen hno hlen
    obtain ⟨sc', hb⟩ := Scan_waits peer hp hen hno hlen
    have := behind_count peer _ (run_behind peer sc' hb sched _ (behind_first cfg ok peer))
    simpa only [run, List.foldl_cons] using this
  · intro id sc sc' more hpc hb
    rw [run_append]
    exact run_stalled id sc sc' hb more _ hpc

/-- C6, witness: two clients that close at once, the second accepted after the first
connection was closed; and a first client that sent "abc" and stays silent, after which a
second client is never accepted. -/
theorem C6_one_connection_at_a_time_witness :
    MainEvent.conn 0 .close ∈
        [MainEvent.log .bypassing, .listen .net (lit "tcp") (lit "localhost:31337"),
         .log .listening, .accepted 0, .log .connected, .conn 0 .close] ∧
      acceptCount (run (start ⟨lit "localhost", [], false, 31337⟩ true)
        (.dial ⟨[lit "abc"], .silent⟩ ::
          [.dial ⟨[], .eof⟩, .main, .main, .main, .main, .main])).trace ≤ 1 :=
  ⟨(C6_one_connection_at_a_time ⟨lit "localhost", [], false, 31337⟩ true
      [.dial ⟨[], .eof⟩, .dial ⟨[], .eof⟩, .main, .main, .main, .main, .main]).1
      _ [.log .connected] 1 (by decide) 0 (by decide),
   (C6_one_connection_at_a_time ⟨lit "localhost", [], false, 31337⟩ true
      [.dial ⟨[], .eof⟩, .main, .main, .main, .main, .main]).2.1
      ⟨[lit "abc"], .silent⟩ (by decide) (by decide) (by decide) (by decide)⟩

/-- C6, counterexample: when the first client is a peer that neither sends a line nor
closes, no schedule of the system, whatever other clients connect, leads to a second
accepted connection. -/
theorem C6_counterexample :
    ¬ ∃ sched : List Action,
      2 ≤ acceptCount
        (run (start ⟨lit "localhost", [], false, 31337⟩ true)
          (.dial silentPeer :: sched)).trace := by
  rintro ⟨sched, h⟩
  have := behind_count silentPeer _
    (run_behind silentPeer _ scan_silentPeer sched _
      (behind_first ⟨lit "localhost", [], false, 31337⟩ true silentPeer))
  simp only [run, List.foldl_cons] at h this
  omega

theorem run_exited (sched : List Action) :
    ∀ (st : State) (c : Nat), st.pc = .exited c → run st sched = st := by
  induction sched with
  | nil => intro st c _; rfl
  | cons a sched ih =>
    intro st c h
    have hs : step st a = st := by simp only [step, h]
    simp only [run, List.foldl_cons, hs]
    exact ih st c h

/-- The events of the handler of a connection along any schedule: one pass of the line
loop for each step of the main goroutine, as long as lines are left, then the close;
interrupts, the closing of the listener and new clients change nothing of it. -/
theorem handler_runs (sched : List Action) :
    ∀ (lines : List (List Byte)) (st : State) (id : Nat) (sc : Scanner),
      (∀ L ∈ lines, nl ∉ L ∧ L.length < MaxScanTokenSize) →
      st.pc = .handling id sc → id < st.nextId → sc.WF → sc.err = none →
      sc.unread = sendLines lines →
      connTrace id (run st sched).trace =
        connTrace id st.trace ++
          (lines.take (sched.count .main)).flatMap (fun L => lineTrace (dropCR L)) ++
          (if lines.length < sched.count .main ∧ sc.r.ending ≠ .silent then [Event.close]
           else []) := by
  induction sched with
  | nil =>
    intro lines st id sc _ _ _ _ _ _
    simp [run]
  | cons a sched ih =>
    intro lines st id sc hv hpc hid hwf herr hun
    by_cases ha : a = .main
    · subst ha
      have hstep : step st .main = stepMain st := by simp only [step, hpc]
      simp only [run, List.foldl_cons, hstep, List.count_cons_self]
      cases lines with
      | nil =>
        obtain ⟨h1, h2⟩ := Scan_drained sc hwf herr (by simpa [sendLines] using hun)
        by_cases hen : sc.r.ending = .silent
        · obtain ⟨sc1, hs⟩ := h2 hen
          have hst : stepMain st = st := by simp only [stepMain, hpc, hs]
          have := ih [] st id sc hv hpc hid hwf herr hun
          simp only [run] at this
          rw [hst, this]
          simp [hen]
        · obtain ⟨sc1, hs⟩ := h1 hen
          have hst : stepMain st =
              { st with pc := .loopHead, trace := st.trace ++ [.conn id .close] } := by
            simp only [stepMain, hpc, hs]
          have := run_fresh id sched (stepMain st) (by rw [hst]; exact hid)
            (by rw [hst]; simp)
          simp only [run] at this
          rw [this, hst]
          simp [connTrace_append, connTrace, hen]
      | cons L ls =>
        have hL := hv L (by simp)
        obtain ⟨sc1, hs, hwf1, herr1, htok1, hun1, hend1⟩ :=
          Scan_line L (sendLines ls) hL.1 hL.2 sc hwf herr (by rw [hun]; simp [sendLines])
        have hst : stepMain st =
            { st with pc := .handling id sc1
                      trace := st.trace ++ (lineEvents sc1).map (MainEvent.conn id) } := by
          simp only [stepMain, hpc, hs]
        have := ih ls (stepMain st) id sc1 (fun B hB => hv B (by simp [hB]))
          (by rw [hst]) (by rw [hst]; exact hid) hwf1 herr1 hun1
        simp only [run] at this
        rw [this, hst]
        simp only [connTrace_append, connTrace_conn, lineEvents_eq sc1 _ htok1, hend1,
          List.take_succ_cons, List.flatMap_cons, List.length_cons, List.append_assoc,
          Nat.add_lt_add_iff_right]
    · obtain ⟨h1, h2, h3⟩ := step_beside id sc st a ha hpc
      have := ih lines (step st a) id sc hv h1 (by rw [h2]; exact hid) hwf herr hun
      simp only [run, List.foldl_cons] at this ⊢
      rw [this, h3, List.count_cons_of_ne (Ne.symm ha)]

theorem acceptCount_one (tr : List MainEvent) (e : MainEvent) (h : isAccepted e = false) :
    acceptCount (tr ++ [e]) = acceptCount tr := by
  simp [acceptCount, List.countP_append, List.countP_cons, h]

theorem acceptCount_conn (tr : List MainEvent) (id : Nat) (evs : List Event) :
    acceptCount (tr ++ evs.map (MainEvent.conn id)) = acceptCount tr := by
  have : acceptCount (evs.map (MainEvent.conn id)) = 0 := by
    simp only [acceptCount, List.countP_eq_zero]
    intro e he
    obtain ⟨x, _, rfl⟩ := List.mem_map.mp he
    simp [isAccepted]
  rw [acceptCount_append, this]; rfl

theorem acceptCount_none (new : List MainEvent) (h : ∀ e ∈ new, isAccepted e = false) :
    acceptCount new = 0 := by
  simp only [acceptCount, List.countP_eq_zero]
  intro e he
  simp [h e he]

/-- A step accepts at most one connection, and none unless the main goroutine is inside
`Accept`. -/
theorem step_count (st : State) (a : Action) :
    acceptCount (step st a).trace ≤ acceptCount st.trace + 1 ∧
      (st.pc ≠ .accept → acceptCount (step st a).trace = acceptCount st.trace) := by
  rcases step_trace st a with ⟨new, h1, h2⟩ | ⟨hpc, _, _, more, h1, h2⟩
  · rw [h1, acceptCount_append, acceptCount_none new h2]
    exact ⟨by omega, fun _ => rfl⟩
  · have : acceptCount (MainEvent.accepted st.nextId :: more) = 1 := by
      have := acceptCount_none more h2
      simp only [acceptCount] at this ⊢
      rw [List.countP_cons, this]
      rfl
    rw [h1, acceptCount_append, this]
    exact ⟨le_refl _, fun h => absurd hpc h⟩

/-- No step takes the cancellation back; the main goroutine enters `Accept` only from the
test of the loop with a context not cancelled; and a step that ends inside `Accept` has
accepted nothing. -/
theorem step_pc_cancel (st : State) (a : Action) :
    (st.cancelled = true → (step st a).cancelled = true) ∧
      ((step st a).pc = .accept →
        (st.pc = .accept ∨ (st.pc = .loopHead ∧ st.cancelled = false)) ∧
          acceptCount (step st a).trace = acceptCount st.trace) := by
  obtain ⟨pc, tsnet, cancelled, lstClosed, lstFailed, queue, nextId, trace⟩ := st
  cases pc with
  | exited c => simp [step]
  | loopHead =>
    cases a <;> simp only [step, stepMain]
    · cases cancelled <;> simp [leave]
    · simp
    · split <;> simp
    · split <;> simp
    · simp
  | accept =>
    cases a <;> simp only [step, stepMain]
    · split
      · simp [leave]
      · split <;> simp
    · simp [acceptCount_one _ _ (rfl : isAccepted MainEvent.interrupt = false)]
    · split
      · simp [acceptCount_one _ _ (rfl : isAccepted MainEvent.listenerClose = false)]
      · simp
    · split <;> simp
    · simp
  | handling id sc =>
    cases a <;> simp only [step, stepMain]
    · split <;> simp [leave]
    · simp
    · split <;> simp
    · split <;> simp
    · simp

/-- After the interrupt the context stays cancelled, the main goroutine does not enter
`Accept` again, and a connection is accepted only by a call of `Accept` that was in
progress. -/
theorem step_pastInterrupt (k b : Nat) (st : State) (a : Action)
    (h : st.PastInterrupt k b) : (step st a).PastInterrupt k b := by
  obtain ⟨hc, hk⟩ := h
  obtain ⟨h1, h2⟩ := step_pc_cancel st a
  obtain ⟨h3, h4⟩ := step_count st a
  by_cases hex : ∃ c, st.pc = .exited c
  · obtain ⟨c, hc'⟩ := hex
    have : step st a = st := by simp only [step, hc']
    rw [this]
    exact ⟨hc, hk⟩
  · have hcan : st.cancelled = true := by
      rcases hc with h | h
      · exact h
      · exact absurd h hex
    refine ⟨Or.inl (h1 hcan), ?_⟩
    by_cases hpc' : (step st a).pc = .accept
    · obtain ⟨hfrom, hsame⟩ := h2 hpc'
      have hpc : st.pc = .accept := by
        rcases hfrom with h | ⟨_, h⟩
        · exact h
        · rw [hcan] at h; cases h
      rcases hk with ⟨_, hk1, hb1⟩ | ⟨hne, _⟩
      · exact Or.inl ⟨hpc', hsame.trans hk1, hb1⟩
      · exact absurd hpc hne
    · right
      refine ⟨hpc', ?_⟩
      rcases hk with ⟨_, hk1, hb1⟩ | ⟨hne, hle⟩
      · omega
      · rw [h4 hne]; exact hle

theorem run_pastInterrupt (k b : Nat) (sched : List Action) :
    ∀ st : State, st.PastInterrupt k b → (run st sched).PastInterrupt k b := by
  induction sched with
  | nil => intro st h; exact h
  | cons a sched ih =>
    intro st h
    simp only [run, List.foldl_cons]
    exact ih (step st a) (step_pastInterrupt k b st a h)

/-- The delivery of the interrupt leads to a state past the interrupt. -/
theorem interrupt_pastInterrupt (st : State) :
    (step st .interrupt).PastInterrupt (acceptCount st.trace)
      (if st.pc = .accept then 1 else 0) := by
  obtain ⟨pc, tsnet, cancelled, lstClosed, lstFailed, queue, nextId, trace⟩ := st
  have hone := acceptCount_one trace MainEvent.interrupt rfl
  cases pc with
  | exited c => exact ⟨Or.inr ⟨c, rfl⟩, Or.inr ⟨by simp [step], by simp [step]⟩⟩
  | loopHead =>
    refine ⟨Or.inl (by simp [step]), Or.inr ⟨by simp [step], ?_⟩⟩
    simp only [step, hone]
    omega
  | accept =>
    refine ⟨Or.inl (by simp [step]), Or.inl ⟨by simp [step], ?_, by simp⟩⟩
    simp only [step, hone]
  | handling id sc =>
    refine ⟨Or.inl (by simp [step]), Or.inr ⟨by simp [step], ?_⟩⟩
    simp only [step, hone]
    omega

theorem step_broken (st : State) (a : Action) (h : st.Broken) : (step st a).Broken := by
  obtain ⟨pc, tsnet, cancelled, lstClosed, lstFailed, queue, nextId, trace⟩ := st
  simp only [State.Broken] at h ⊢
  cases pc with
  | exited c => simp only [step]; exact h
  | loopHead =>
    have hf : lstFailed = true := by
      rcases h with h | ⟨c, h⟩
      · exact h
      · cases h
    subst hf
    cases a <;> simp only [step, stepMain] <;> (repeat' split) <;>
      simp_all [leave]
  | accept =>
    have hf : lstFailed = true := by
      rcases h with h | ⟨c, h⟩
      · exact h
      · cases h
    subst hf
    cases a <;> simp only [step, stepMain] <;> (repeat' split) <;>
      simp_all [leave]
  | handling id sc =>
    have hf : lstFailed = true := by
      rcases h with h | ⟨c, h⟩
      · exact h
      · cases h
    subst hf
    cases a <;> simp only [step, stepMain] <;> (repeat' split) <;>
      simp_all [leave]

theorem break_broken (st : State) : (step st .breakListener).Broken := by
  obtain ⟨pc, tsnet, cancelled, lstClosed, lstFailed, queue, nextId, trace⟩ := st
  cases pc <;> simp [State.Broken, step]

theorem run_broken (sched : List Action) :
    ∀ st : State, st.Broken ∨ Action.breakListener ∈ sched → (run st sched).Broken := by
  induction sched with
  | nil =>
    intro st h
    rcases h with h | h
    · exact h
    · cases h
  | cons a sched ih =>
    intro st h
    simp only [run, List.foldl_cons]
    apply ih
    rcases h with h | h
    · exact Or.inl (step_broken st a h)
    · rcases List.mem_cons.mp h with h | h
      · subst h; exact Or.inl (break_broken st)
      · exact Or.inr h

theorem leave_final (st : State) (code : Nat) :
    (leave st code).pc = .exited code ∧
      acceptCount (leave st code).trace = acceptCount st.trace ∧
      ∀ sched, run (leave st code) sched = leave st code :=
  ⟨rfl, acceptCount_leave st code, fun sched => run_exited sched _ code rfl⟩

/-- C9 (amended), over the runs of the program.  (1) Once the goroutine of line 77 has
closed the listener, no `Accept` returns a connection.  (2) After the interrupt at most one
more connection is accepted, and none unless the main goroutine was inside `Accept` when
the interrupt came.  (3) After the interrupt the context stays cancelled while the process
lives: at the test of the accept loop `main` returns without calling `Accept`, and when
the line loop of the connection being handled ends, the connection is closed and `main`
returns at its next step.  (4) A connection taken by `Accept`, whether the interrupt comes
before, during or after its handling, is served to its end: along every schedule the
events of its handler are, for its lines shorter than 65536 bytes in order, the pass of
the line loop with the response `"OK " ++ decimal(n) ++ "\n"`, one for each step of the
main goroutine, and then the close once the stream has ended.  (5) Once the listener is
closed or broken, a call of `Accept` fails, the accept loop ends and `main` returns, with
no further `Accept`. -/
theorem C9_shutdown (cfg : Config) (ok : Bool) (sched more : List Action) :
    (∀ (p q : List MainEvent) (id : Nat),
        (run (start cfg ok) sched).trace = p ++ .accepted id :: q →
        MainEvent.listenerClose ∉ p) ∧
    (acceptCount (run (start cfg ok) (sched ++ .interrupt :: more)).trace ≤
        acceptCount (run (start cfg ok) sched).trace +
          (if (run (start cfg ok) sched).pc = .accept then 1 else 0)) ∧
    (((run (start cfg ok) (sched ++ .interrupt :: more)).cancelled = true ∨
        (∃ c, (run (start cfg ok) (sched ++ .interrupt :: more)).pc = .exited c)) ∧
      ((run (start cfg ok) (sched ++ .interrupt :: more)).pc = .loopHead →
        (step (run (start cfg ok) (sched ++ .interrupt :: more)) .main).pc = .exited 0 ∧
          acceptCount (step (run (start cfg ok) (sched ++ .interrupt :: more)) .main).trace =
            acceptCount (run (start cfg ok) (sched ++ .interrupt :: more)).trace ∧
          ∀ s, run (step (run (start cfg ok) (sched ++ .interrupt :: more)) .main) s =
            step (run (start cfg ok) (sched ++ .interrupt :: more)) .main) ∧
      (∀ (id : Nat) (sc sc1 : Scanner),
        (run (start cfg ok) (sched ++ .interrupt :: more)).pc = .handling id sc →
        sc.Scan = .ret false sc1 →
        (run (start cfg ok) ((sched ++ .interrupt :: more) ++ [.main, .main])).pc = .exited 0 ∧
          connTrace id
              (run (start cfg ok) ((sched ++ .interrupt :: more) ++ [.main, .main])).trace =
            connTrace id (run (start cfg ok) (sched ++ .interrupt :: more)).trace ++
              [Event.close] ∧
          acceptCount
              (run (start cfg ok) ((sched ++ .interrupt :: more) ++ [.main, .main])).trace =
            acceptCount (run (start cfg ok) (sched ++ .interrupt :: more)).trace)) ∧
    (∀ (peer : Reader) (rest : List Reader) (lines : List (List Byte)),
        (run (start cfg ok) sched).pc = .accept →
        (run (start cfg ok) sched).lstClosed = false →
        (run (start cfg ok) sched).lstFailed = false →
        (run (start cfg ok) sched).queue = peer :: rest → peer.Proper →
        peer.stream = sendLines lines →
        (∀ L ∈ lines, nl ∉ L ∧ L.length < MaxScanTokenSize) →
        connTrace (run (start cfg ok) sched).nextId
            (run (start cfg ok) (sched ++ .main :: more)).trace =
          connTrace (run (start cfg ok) sched).nextId (run (start cfg ok) sched).trace ++
            (lines.take (more.count .main)).flatMap (fun L =>
              [Event.scan (dropCR L), Event.stdout (lit "-> " ++ dropCR L ++ [nl]),
               Event.write (lit "OK " ++ fmtNat (dropCR L).length ++ [nl])]) ++
            (if lines.length < more.count .main ∧ peer.ending ≠ .silent then [Event.close]
             else [])) ∧
    ((run (start cfg ok) sched).pc = .accept →
        (MainEvent.listenerClose ∈ (run (start cfg ok) sched).trace ∨
          Action.breakListener ∈ sched) →
        (step (run (start cfg ok) sched) .main).pc = .exited 0 ∧
          acceptCount (step (run (start cfg ok) sched) .main).trace =
            acceptCount (run (start cfg ok) sched).trace ∧
          ∀ s, run (step (run (start cfg ok) sched) .main) s =
            step (run (start cfg ok) sched) .main) := by
  obtain ⟨hi1, hi2, hi3⟩ := start_invariants cfg ok
  obtain ⟨_, hseen, _, hnoacc⟩ := run_invariants sched (start cfg ok) hi1 hi2 (hi3 _) (hi3 _)
  have hpast : (run (start cfg ok) (sched ++ .interrupt :: more)).PastInterrupt
      (acceptCount (run (start cfg ok) sched).trace)
      (if (run (start cfg ok) sched).pc = .accept then 1 else 0) := by
    rw [run_append]
    simp only [run, List.foldl_cons]
    exact run_pastInterrupt _ _ more _ (interrupt_pastInterrupt _)
  refine ⟨hnoacc, ?_, ⟨hpast.1, ?_, ?_⟩, ?_, ?_⟩
  · rcases hpast.2 with ⟨_, h, hb⟩ | ⟨_, h⟩
    · omega
    · exact h
  · generalize run (start cfg ok) (sched ++ .interrupt :: more) = st at hpast
    intro hpc
    have hcan : st.cancelled = true := by
      rcases hpast.1 with h | ⟨c, h⟩
      · exact h
      · rw [hpc] at h; cases h
    have hs : step st .main = leave st 0 := by
      simp only [step, stepMain, hpc, hcan, if_true]
    rw [hs]
    exact leave_final st 0
  · intro id sc sc1 hpc hscan
    rw [run_append (start cfg ok) (sched ++ .interrupt :: more)]
    generalize run (start cfg ok) (sched ++ .interrupt :: more) = st at hpast hpc
    have hcan : st.cancelled = true := by
      rcases hpast.1 with h | ⟨c, h⟩
      · exact h
      · rw [hpc] at h; cases h
    have h1 : step st .main =
        { st with pc := .loopHead, trace := st.trace ++ [.conn id .close] } := by
      simp only [step, stepMain, hpc, hscan]
    have h2 : step (step st .main) .main =
        leave { st with pc := .loopHead, trace := st.trace ++ [.conn id .close] } 0 := by
      rw [h1]
      simp only [step, stepMain, hcan, if_true]
    have hrun : run st [.main, .main] = step (step st .main) .main := rfl
    rw [hrun, h2]
    refine ⟨rfl, ?_, ?_⟩
    · rw [connTrace_leave]
      simp [connTrace_append, connTrace]
    · rw [acceptCount_leave]
      exact acceptCount_one _ _ rfl
  · intro peer rest lines hpc hc hf hq hpr hs hv
    rw [run_append]
    generalize run (start cfg ok) sched = st at hpc hc hf hq
    have hstep : step st .main =
        { st with pc := .handling st.nextId (NewScanner peer), queue := rest,
                  nextId := st.nextId + 1,
                  trace := st.trace ++ [.accepted st.nextId, .log .connected] } := by
      simp [step, stepMain, hpc, hc, hf, hq]
    have := handler_runs more lines (step st .main) st.nextId (NewScanner peer) hv
      (by rw [hstep]) (by rw [hstep]; simp) (WF_new peer hpr) rfl
      (by simpa [Scanner.unread, NewScanner, Reader.stream] using hs)
    simp only [run, List.foldl_cons] at this ⊢
    rw [this, hstep]
    simp [connTrace_append, connTrace, lineTrace, NewScanner]
  · intro hpc hgone
    have hbroken := run_broken sched (start cfg ok)
    generalize run (start cfg ok) sched = st at hpc hgone hseen hbroken
    have hfail : st.lstClosed = true ∨ st.lstFailed = true := by
      rcases hgone with h | h
      · rcases hseen h with h | ⟨c, h⟩
        · exact Or.inl h
        · rw [hpc] at h; cases h
      · rcases hbroken (Or.inr h) with h | ⟨c, h⟩
        · exact Or.inr h
        · rw [hpc] at h; cases h
    have hs : step st .main =
        leave { st with trace := st.trace ++ [.log .acceptFailed] } 0 := by
      simp only [step, stepMain, hpc]
      rw [if_pos hfail]
    rw [hs]
    obtain ⟨h1, h2, h3⟩ := leave_final { st with trace := st.trace ++ [.log .acceptFailed] } 0
    refine ⟨h1, ?_, h3⟩
    rw [h2]
    exact acceptCount_one _ _ rfl

/-- C9, witness: a client sends two lines and closes; the interrupt is delivered and the
listener is closed while its connection is handled; both lines are answered and the
connection is closed; and after that interrupt no further connection is accepted. -/
theorem C9_shutdown_witness :
    connTrace 0 (run (start ⟨lit "localhost", [], false, 31337⟩ true)
        ([.dial ⟨[lit "a\nbc\n"], .eof⟩, .main] ++
          .main :: [.interrupt, .main, .watcher, .main, .main])).trace =
      [.scan (lit "a"), .stdout (lit "-> a\n"), .write (lit "OK 1\n"),
       .scan (lit "bc"), .stdout (lit "-> bc\n"), .write (lit "OK 2\n"), .close] ∧
    acceptCount (run (start ⟨lit "localhost", [], false, 31337⟩ true)
        ([.dial ⟨[lit "a\nbc\n"], .eof⟩, .main, .main] ++
          .interrupt :: [.dial ⟨[], .eof⟩, .main, .main, .main, .main])).trace ≤ 1 :=
  ⟨(C9_shutdown ⟨lit "localhost", [], false, 31337⟩ true
      [.dial ⟨[lit "a\nbc\n"], .eof⟩, .main] [.interrupt, .main, .watcher, .main, .main]).2.2.2.1
      ⟨[lit "a\nbc\n"], .eof⟩ [] [lit "a", lit "bc"]
      (by decide) (by decide) (by decide) (by decide) (by decide) (by decide) (by decide),
   (C9_shutdown ⟨lit "localhost", [], false, 31337⟩ true
      [.dial ⟨[lit "a\nbc\n"], .eof⟩, .main, .main]
      [.dial ⟨[], .eof⟩, .main, .main, .main, .main]).2.1⟩

/-- C9, counterexample: the main goroutine is inside `Accept` when the interrupt cancels
the context; a client connects before the goroutine of line 77 has closed the listener;
`Accept` returns its connection, after the cancellation. -/
theorem C9_counterexample :
    (run (start ⟨lit "localhost", [], false, 31337⟩ true)
        [.main, .interrupt, .dial ⟨[lit "hi\n"], .eof⟩, .main]).trace =
      [.log .bypassing, .listen .net (lit "tcp") (lit "localhost:31337"), .log .listening,
       .interrupt, .accepted 0, .log .connected] := by
  decide

end ReproTsnet
